import Mathlib

/-!
Verification development for the `smart-file-organizer` repository
(`src/smart-file-organizer/main.py`).

The Python program is shallowly embedded here:
* paths are `FPath` records (parent directory string + base name);
* the filesystem is an `FS` record: the list of canonical paths of the
  existing files (`inodes`), a finite symlink alias table (`aliases`,
  giving the `resolve` function), created directories, per-inode
  attribute maps (size, content digest, modification time, each
  `Option Nat` where `none` models an `OSError`), and an environment
  oracle `moveOk` telling whether a given `shutil.move` call succeeds;
* `find_duplicates`, `move_file` and the three organizing stages of
  `main` are translated function by function.
-/

namespace SFO

/-- A file path: parent directory (as a flat string) plus base name,
mirroring how the program only ever combines `dest_dir / name`. -/
structure FPath where
  dir : String
  base : String
deriving DecidableEq

/-- Index of the last `'.'` in a character list (Python `str.rfind('.')`,
`none` when absent). -/
def lastDotIdx : List Char → Option Nat
  | [] => none
  | c :: rest =>
    match lastDotIdx rest with
    | some i => some (i + 1)
    | none => if c = '.' then some 0 else none

/-- `pathlib.PurePath.stem` of a base name: everything before the last dot,
except that a leading dot or a trailing dot does not start an extension. -/
def pstem (name : String) : String :=
  let cs := name.toList
  match lastDotIdx cs with
  | some i => if 0 < i ∧ i < cs.length - 1 then String.mk (cs.take i) else name
  | none => name

/-- `pathlib.PurePath.suffix` of a base name. -/
def psuffix (name : String) : String :=
  let cs := name.toList
  match lastDotIdx cs with
  | some i => if 0 < i ∧ i < cs.length - 1 then String.mk (cs.drop i) else ""
  | none => ""

/-- The decimal digit character for `d`. -/
def digitChar (d : Nat) : Char := Char.ofNat (48 + d)

/-- Little-endian decimal digits of `n`, with explicit fuel so that the
recursion is structural (fuel `n` is always enough). -/
def natDigitsAux : Nat → Nat → List Nat
  | 0, _ => []
  | _ + 1, 0 => []
  | fuel + 1, n + 1 => ((n + 1) % 10) :: natDigitsAux fuel ((n + 1) / 10)

/-- The decimal rendering of `n` as a character list (Python `f"{n}"`). -/
def natChars (n : Nat) : List Char :=
  if n = 0 then ['0'] else ((natDigitsAux n n).reverse).map digitChar

/-- Value of a little-endian decimal digit list. -/
def valDigits : List Nat → Nat
  | [] => 0
  | d :: rest => d + 10 * valDigits rest

theorem valDigits_natDigitsAux : ∀ fuel n, n ≤ fuel →
    valDigits (natDigitsAux fuel n) = n := by
  intro fuel
  induction fuel with
  | zero => intro n hn; interval_cases n; rfl
  | succ m ih =>
    intro n hn
    cases n with
    | zero => rfl
    | succ k =>
      have hlt : (k + 1) / 10 < k + 1 := Nat.div_lt_self (Nat.succ_pos k) (by omega)
      have := ih ((k + 1) / 10) (by omega)
      simp only [natDigitsAux, valDigits, this]
      exact Nat.mod_add_div (k + 1) 10

theorem natDigitsAux_lt : ∀ fuel n d, d ∈ natDigitsAux fuel n → d < 10 := by
  intro fuel
  induction fuel with
  | zero => intro n d h; simp [natDigitsAux] at h
  | succ m ih =>
    intro n d h
    cases n with
    | zero => simp [natDigitsAux] at h
    | succ k =>
      simp only [natDigitsAux, List.mem_cons] at h
      rcases h with h | h
      · subst h; exact Nat.mod_lt _ (by omega)
      · exact ih _ _ h

theorem digitChar_inj_lt : ∀ d < 10, ∀ e < 10, digitChar d = digitChar e → d = e := by
  decide

theorem map_digitChar_inj : ∀ l1 l2 : List Nat, (∀ d ∈ l1, d < 10) → (∀ d ∈ l2, d < 10) →
    l1.map digitChar = l2.map digitChar → l1 = l2 := by
  intro l1
  induction l1 with
  | nil => intro l2 _ _ h; cases l2 <;> simp_all
  | cons a t ih =>
    intro l2 h1 h2 h
    cases l2 with
    | nil => simp at h
    | cons b u =>
      simp only [List.map_cons, List.cons.injEq] at h
      have ha : a = b :=
        digitChar_inj_lt a (h1 a (by simp)) b (h2 b (by simp)) h.1
      have ht : t = u := ih u (fun d hd => h1 d (by simp [hd]))
        (fun d hd => h2 d (by simp [hd])) h.2
      simp [ha, ht]

theorem natChars_inj : ∀ n m, natChars n = natChars m → n = m := by
  have key : ∀ k, k ≠ 0 → ((natDigitsAux k k).reverse).map digitChar ≠ ['0'] := by
    intro k hk h
    have h2 : (natDigitsAux k k).reverse = [0] := by
      cases hrev : (natDigitsAux k k).reverse with
      | nil => simp [hrev] at h
      | cons d rest =>
        rw [hrev] at h
        cases rest with
        | nil =>
          simp only [List.map_cons, List.map_nil, List.cons.injEq, and_true] at h
          have hd : d < 10 := by
            have : d ∈ natDigitsAux k k := by
              have : d ∈ (natDigitsAux k k).reverse := by simp [hrev]
              simpa using this
            exact natDigitsAux_lt _ _ _ this
          have : d = 0 := digitChar_inj_lt d hd 0 (by omega) h
          simp [this]
        | cons e rest2 => simp at h
    have h3 : natDigitsAux k k = [0] := by
      have := congrArg List.reverse h2
      simpa using this
    have := valDigits_natDigitsAux k k le_rfl
    rw [h3] at this
    simp [valDigits] at this
    exact hk this.symm
  intro n m h
  unfold natChars at h
  by_cases hn : n = 0 <;> by_cases hm : m = 0
  · omega
  · rw [if_pos hn, if_neg hm] at h; exact absurd h.symm (key m hm)
  · rw [if_neg hn, if_pos hm] at h; exact absurd h (key n hn)
  · rw [if_neg hn, if_neg hm] at h
    have hrev : (natDigitsAux n n).reverse = (natDigitsAux m m).reverse :=
      map_digitChar_inj _ _
        (fun d hd => natDigitsAux_lt _ _ _ (by simpa using hd))
        (fun d hd => natDigitsAux_lt _ _ _ (by simpa using hd)) h
    have hdig : natDigitsAux n n = natDigitsAux m m := by
      have := congrArg List.reverse hrev
      simpa using this
    have hv1 := valDigits_natDigitsAux n n le_rfl
    have hv2 := valDigits_natDigitsAux m m le_rfl
    rw [hdig] at hv1
    omega

theorem toList_append (s t : String) : (s ++ t).toList = s.toList ++ t.toList := rfl

/-! ### The filesystem model -/

/-- The filesystem state.

`inodes` lists the canonical paths of the existing regular files;
`aliases` is a finite symlink alias table inducing path resolution;
`dirs` records created directories; the three attribute maps give the
per-inode stat/read results (`none` = `OSError`); `moveOk` is the
environment oracle deciding whether a concrete `shutil.move` succeeds
(cross-device error, permissions, disk full). -/
structure FS where
  inodes : List FPath
  aliases : List (FPath × FPath)
  dirs : List String
  sizeI : FPath → Option Nat
  digestI : FPath → Option Nat
  mtimeI : FPath → Option Nat
  moveOk : FPath → FPath → Bool

/-- `Path.resolve()`: canonicalize through the alias table. -/
def FS.resolve (fs : FS) (p : FPath) : FPath :=
  match fs.aliases.find? (fun a => decide (a.1 = p)) with
  | some a => a.2
  | none => p

/-- `Path.exists()`: the resolved path denotes an existing file. -/
def FS.ex (fs : FS) (p : FPath) : Bool := decide (fs.resolve p ∈ fs.inodes)

/-- `path.stat().st_size`, failing (`none`) when the file does not exist. -/
def statSize (fs : FS) (p : FPath) : Option Nat :=
  if fs.ex p then fs.sizeI (fs.resolve p) else none

/-- `file_hash(path)`: the content digest, or `none` on `OSError`. -/
def file_hash (fs : FS) (p : FPath) : Option Nat :=
  if fs.ex p then fs.digestI (fs.resolve p) else none

/-- `path.stat().st_mtime` as an `Option` (`none` on `OSError`). -/
def statMtime (fs : FS) (p : FPath) : Option Nat :=
  if fs.ex p then fs.mtimeI (fs.resolve p) else none

/-- `get_mtime(path)`: modification time, `0.0` when it cannot be read. -/
def get_mtime (fs : FS) (p : FPath) : Nat := (statMtime fs p).getD 0

/-- `dest_dir.mkdir(parents=True, exist_ok=True)`. -/
def FS.mkdir (fs : FS) (d : String) : FS :=
  { fs with dirs := if d ∈ fs.dirs then fs.dirs else fs.dirs ++ [d] }

/-- Update an attribute map when the file moves from `cs` to `cd`. -/
def updAttr (g : FPath → Option Nat) (cs cd : FPath) : FPath → Option Nat :=
  fun c => if c = cd then g cs else g c

/-- The effect of a successful `shutil.move(src, dst)`: the source inode
disappears, the destination inode appears, carrying the attributes. -/
def FS.domove (fs : FS) (src dst : FPath) : FS :=
  let cs := fs.resolve src
  let cd := fs.resolve dst
  { fs with
    inodes := fs.inodes.erase cs ++ [cd],
    sizeI := updAttr fs.sizeI cs cd,
    digestI := updAttr fs.digestI cs cd,
    mtimeI := updAttr fs.mtimeI cs cd }

/-! ### The Relocator (`move_file`) -/

/-- The `n`-th conflict candidate name `f"{src.stem}_{n}{src.suffix}"`. -/
def suffixName (src : FPath) (n : Nat) : String :=
  pstem src.base ++ "_" ++ String.mk (natChars n) ++ psuffix src.base

/-- The `n`-th conflict candidate path in `destDir`. -/
def cand (destDir : String) (src : FPath) (n : Nat) : FPath :=
  ⟨destDir, suffixName src n⟩

/-- The conflict-resolution loop `while dest.exists(): dest = ...; n += 1`,
with explicit fuel (the fuel below is always sufficient, see
`conflictDest_free`). -/
def conflictDest (fs : FS) (destDir : String) (src : FPath) : Nat → Nat → FPath
  | 0, n => cand destDir src n
  | fuel + 1, n =>
    if fs.ex (cand destDir src n) then conflictDest fs destDir src fuel (n + 1)
    else cand destDir src n

/-- Sufficient fuel for the conflict loop on `fs`. -/
def conflictFuel (fs : FS) : Nat := fs.aliases.length + fs.inodes.length + 1

/-- `move_file(src, dest_dir, dry_run)`: returns the `moved?` boolean of the
Python function together with the updated filesystem. -/
def move_file (fs : FS) (src : FPath) (destDir : String) (dry : Bool) :
    Bool × FS :=
  if !fs.ex src then (false, fs)
  else
    let dest0 : FPath := ⟨destDir, src.base⟩
    if fs.ex dest0 ∧ fs.resolve dest0 = fs.resolve src then (false, fs)
    else
      let dest := if fs.ex dest0 then conflictDest fs destDir src (conflictFuel fs) 1
                  else dest0
      if dry then (true, fs)
      else
        let fs1 := fs.mkdir destDir
        if fs.moveOk src dest then (true, fs1.domove src dest)
        else (false, fs1)

/-! ### The DuplicateDetector (`find_duplicates`) -/

/-- `defaultdict(list)` insertion: append `v` to the bucket of `k`,
creating the bucket at the end when absent (Python dict insertion order). -/
def addToGroup {κ : Type} [DecidableEq κ] :
    List (κ × List FPath) → κ → FPath → List (κ × List FPath)
  | [], k, v => [(k, [v])]
  | (k', vs) :: rest, k, v =>
    if k = k' then (k', vs ++ [v]) :: rest else (k', vs) :: addToGroup rest k v

/-- One iteration of a grouping loop: insert `f` into the bucket of its
key, dropping it when the key is absent. -/
def groupIns {κ : Type} [DecidableEq κ] (key : FPath → Option κ)
    (g : List (κ × List FPath)) (f : FPath) : List (κ × List FPath) :=
  match key f with
  | some k => addToGroup g k f
  | none => g

/-- Grouping a file list by an optional key (files with key `none` are
dropped), preserving first-seen bucket order and input order inside each
bucket. -/
def groupFold {κ : Type} [DecidableEq κ] (key : FPath → Option κ)
    (l : List FPath) : List (κ × List FPath) :=
  l.foldl (groupIns key) []

/-- The size key used by the first phase of `find_duplicates`: the stat
size when it is readable and positive, `none` otherwise. -/
def sizeKey (fs : FS) (f : FPath) : Option Nat :=
  match statSize fs f with
  | some sz => if 0 < sz then some sz else none
  | none => none

/-- Phase 1 of `find_duplicates`: the `by_size` dictionary. -/
def by_size (fs : FS) (files : List FPath) : List (Nat × List FPath) :=
  groupFold (sizeKey fs) files

/-- Phase 2 of `find_duplicates`: the `by_hash` dictionary, built from the
size groups with at least two members. -/
def by_hash (fs : FS) (files : List FPath) : List (Nat × List FPath) :=
  (by_size fs files).foldl
    (fun g c =>
      if c.2.length < 2 then g
      else c.2.foldl (groupIns (file_hash fs)) g)
    []

/-- The files on which `file_hash` is invoked: all members of the size
groups with at least two members, in group order. -/
def hashedFiles (fs : FS) (files : List FPath) : List FPath :=
  (by_size fs files).foldl
    (fun acc c => if c.2.length < 2 then acc else acc ++ c.2) []

/-- Stable insertion into a list sorted by modification time. -/
def insortMtime (fs : FS) : FPath → List FPath → List FPath
  | x, [] => [x]
  | x, y :: ys =>
    if get_mtime fs x ≤ get_mtime fs y then x :: y :: ys
    else y :: insortMtime fs x ys

/-- `paths.sort(key=get_mtime)`: a stable sort by modification time. -/
def sortByMtime (fs : FS) (l : List FPath) : List FPath :=
  l.foldr (insortMtime fs) []

/-- `find_duplicates(files)`: the list of duplicate files to move
(keeping the oldest of each group). -/
def find_duplicates (fs : FS) (files : List FPath) : List FPath :=
  (by_hash fs files).foldl
    (fun acc c =>
      if 1 < c.2.length then acc ++ (sortByMtime fs c.2).drop 1 else acc)
    []

/-! ### The Organizer (`main`, lines 134-179) -/

/-- The `CATEGORIES`/`EXT_MAP` lookup: category of a (lower-cased)
extension, with fallback `other`. -/
def ext_map (e : String) : String :=
  if e ∈ [".jpg", ".jpeg", ".png", ".gif", ".webp", ".svg", ".heic", ".raw"] then "images"
  else if e ∈ [".pdf", ".doc", ".docx", ".txt", ".rtf", ".xls", ".xlsx", ".ppt",
               ".pptx", ".csv", ".md"] then "documents"
  else if e ∈ [".mp4", ".mkv", ".avi", ".mov", ".webm"] then "videos"
  else if e ∈ [".mp3", ".wav", ".flac", ".aac", ".ogg", ".m4a"] then "audio"
  else if e ∈ [".zip", ".rar", ".7z", ".tar", ".gz"] then "archives"
  else if e ∈ [".py", ".js", ".ts", ".html", ".css", ".java", ".cpp", ".c",
               ".go", ".rs", ".sh", ".json"] then "code"
  else "other"

/-- ASCII lower-casing of one character. -/
def lowerChar (c : Char) : Char :=
  if 'A' ≤ c ∧ c ≤ 'Z' then Char.ofNat (c.toNat + 32) else c

/-- `str.lower()` (extensions are ASCII, so ASCII lowering suffices). -/
def strLower (s : String) : String := String.mk (s.toList.map lowerChar)

/-- The by-type category of a file: `EXT_MAP.get(f.suffix.lower(), 'other')`. -/
def typeCat (f : FPath) : String := ext_map (strLower (psuffix f.base))

/-- The by-date category of a file: bucket of `now - st_mtime`
(times in seconds), `unknown` when the stat fails. -/
def dateCat (fs : FS) (now : Nat) (f : FPath) : String :=
  match statMtime fs f with
  | none => "unknown"
  | some t =>
    let age : Int := (now : Int) - (t : Int)
    if age < 7 * 86400 then "this_week"
    else if age < 30 * 86400 then "this_month"
    else "older"

/-- Which of the three stages issued a Relocator call. -/
inductive Stage | dups | byType | byDate
deriving DecidableEq

/-- One Relocator call: issuing stage, source path, and whether
`move_file` returned `True`. -/
structure MoveRec where
  stage : Stage
  src : FPath
  ok : Bool
deriving DecidableEq

/-- The run state of `main`'s organizing loops: filesystem, the `moved`
counter, the `seen` set (kept as a list), and the trace of Relocator
calls (for bookkeeping in the theorems; not part of the program state). -/
structure OrgState where
  fs : FS
  moved : Nat
  seen : List FPath
  trace : List MoveRec

/-- `out / cat`. -/
def childDir (out cat : String) : String := out ++ "/" ++ cat

/-- Issue one Relocator call and update counter, `seen` set (when the
stage records successes there) and trace. -/
def recordMove (st : OrgState) (stage : Stage) (f : FPath) (destDir : String)
    (dry : Bool) (addSeen : Bool) : OrgState :=
  let r := move_file st.fs f destDir dry
  { fs := r.2,
    moved := st.moved + (if r.1 then 1 else 0),
    seen := if r.1 && addSeen then st.seen ++ [f] else st.seen,
    trace := st.trace ++ [⟨stage, f, r.1⟩] }

/-- One iteration of the duplicates loop (main lines 142-145). -/
def dupStep (out : String) (dry : Bool) (st : OrgState) (f : FPath) : OrgState :=
  recordMove st Stage.dups f (childDir out "_duplicates") dry true

/-- One iteration of the by-type loop (main lines 151-157). -/
def typeStep (out : String) (dry : Bool) (st : OrgState) (f : FPath) : OrgState :=
  if f ∈ st.seen then st
  else recordMove st Stage.byType f (childDir out (typeCat f)) dry true

/-- One iteration of the by-date loop (main lines 162-177); note that it
does not add moved files to `seen`. -/
def dateStep (out : String) (dry : Bool) (now : Nat) (st : OrgState) (f : FPath) :
    OrgState :=
  if f ∈ st.seen then st
  else recordMove st Stage.byDate f (childDir out (dateCat st.fs now f)) dry false

/-- Inputs supplied by the (excluded) CLI layer. -/
structure Config where
  files : List FPath
  out : String
  doDups : Bool
  doType : Bool
  doDate : Bool
  now : Nat

/-- The duplicates stage (main lines 137-147): `find_duplicates` runs on
the filesystem as it stands when the stage starts. -/
def stage1 (cfg : Config) (dry : Bool) (st : OrgState) : OrgState :=
  if cfg.doDups then
    (find_duplicates st.fs cfg.files).foldl (dupStep cfg.out dry) st
  else st

/-- The by-type stage (main lines 149-157). -/
def stage2 (cfg : Config) (dry : Bool) (st : OrgState) : OrgState :=
  if cfg.doType then cfg.files.foldl (typeStep cfg.out dry) st else st

/-- The by-date stage (main lines 159-177). -/
def stage3 (cfg : Config) (dry : Bool) (st : OrgState) : OrgState :=
  if cfg.doDate then cfg.files.foldl (dateStep cfg.out dry cfg.now) st else st

/-- The organizing run of `main` (lines 134-179): the three optional
stages in fixed order over the initially enumerated `files`. -/
def organize (cfg : Config) (dry : Bool) (fs0 : FS) : OrgState :=
  stage3 cfg dry (stage2 cfg dry (stage1 cfg dry ⟨fs0, 0, [], []⟩))

/-- Number of successful Relocator calls in a trace. -/
def okCount (tr : List MoveRec) : Nat := (tr.filter (fun r => r.ok)).length

/-- Sources of the successful Relocator calls in a trace. -/
def okSrcs (tr : List MoveRec) : List FPath :=
  (tr.filter (fun r => r.ok)).map (fun r => r.src)

/-- Sources of the successful Relocator calls issued by the duplicates
and by-type stages. -/
def okSrcs12 (tr : List MoveRec) : List FPath :=
  okSrcs (tr.filter (fun r => decide (r.stage ≠ Stage.byDate)))

/-! ### Concrete instances used by the witness theorems -/

/-- A three-file directory with two duplicates of `b.txt` (the oldest). -/
def fsW : FS :=
  { inodes := [⟨"s", "a.txt"⟩, ⟨"s", "b.txt"⟩, ⟨"s", "c.txt"⟩]
    aliases := []
    dirs := []
    sizeI := fun _ => some 5
    digestI := fun _ => some 7
    mtimeI := fun p => if p = ⟨"s", "b.txt"⟩ then some 10 else some 20
    moveOk := fun _ _ => true }

/-- The enumerated files of `fsW`. -/
def filesW : List FPath := [⟨"s", "a.txt"⟩, ⟨"s", "b.txt"⟩, ⟨"s", "c.txt"⟩]

/-- A full-policy configuration over `filesW`. -/
def cfgW : Config :=
  { files := filesW
    out := "o"
    doDups := true
    doType := true
    doDate := true
    now := 100 }

/-- A directory where `d/f.txt` and `d/f_1.txt` already exist, so moving
`s/f.txt` into `d` must pick `f_2.txt`. -/
def fsConflict : FS :=
  { inodes := [⟨"s", "f.txt"⟩, ⟨"d", "f.txt"⟩, ⟨"d", "f_1.txt"⟩]
    aliases := []
    dirs := []
    sizeI := fun _ => some 5
    digestI := fun _ => some 7
    mtimeI := fun _ => some 20
    moveOk := fun _ _ => true }

/-- A single-file filesystem whose move primitive always fails. -/
def fsFail : FS :=
  { inodes := [⟨"s", "a.txt"⟩]
    aliases := []
    dirs := []
    sizeI := fun _ => some 5
    digestI := fun _ => some 7
    mtimeI := fun _ => some 20
    moveOk := fun _ _ => false }

/-- Three files where `a.txt` has a unique size (1) and the others share
size 2. -/
def fsSizes : FS :=
  { inodes := [⟨"s", "a.txt"⟩, ⟨"s", "b.txt"⟩, ⟨"s", "c.txt"⟩]
    aliases := []
    dirs := []
    sizeI := fun p => if p = ⟨"s", "a.txt"⟩ then some 1 else some 2
    digestI := fun _ => some 7
    mtimeI := fun _ => some 20
    moveOk := fun _ _ => true }

/-- A by-type-only configuration over the single file of `fsFail`. -/
def cfgFail : Config :=
  { files := [⟨"s", "a.txt"⟩]
    out := "o"
    doDups := false
    doType := true
    doDate := false
    now := 100 }

/-- One regular file `s/a.txt` plus an enumerated symlink alias
`s/b.txt` resolving to it; every move succeeds. -/
def fsAlias : FS :=
  { inodes := [⟨"s", "a.txt"⟩]
    aliases := [(⟨"s", "b.txt"⟩, ⟨"s", "a.txt"⟩)]
    dirs := []
    sizeI := fun _ => some 5
    digestI := fun _ => some 7
    mtimeI := fun _ => some 20
    moveOk := fun _ _ => true }

/-- A by-type-only configuration enumerating both the file and its alias. -/
def cfgAlias : Config :=
  { files := [⟨"s", "a.txt"⟩, ⟨"s", "b.txt"⟩]
    out := "o"
    doDups := false
    doType := true
    doDate := false
    now := 100 }

/-! ## Theorems -/

theorem ex_iff (fs : FS) (p : FPath) :
    fs.ex p = true ↔ fs.resolve p ∈ fs.inodes := by
  simp [FS.ex]

theorem resolve_mkdir (fs : FS) (d : String) (p : FPath) :
    (fs.mkdir d).resolve p = fs.resolve p := rfl

theorem resolve_domove (fs : FS) (src dst p : FPath) :
    (fs.domove src dst).resolve p = fs.resolve p := rfl

theorem inodes_domove (fs : FS) (src dst : FPath) :
    (fs.domove src dst).inodes =
      fs.inodes.erase (fs.resolve src) ++ [fs.resolve dst] := rfl

theorem ex_domove_of_ne (fs : FS) (src dst p : FPath)
    (hex : fs.ex p = true) (hne : fs.resolve p ≠ fs.resolve src) :
    (fs.domove src dst).ex p = true := by
  rw [ex_iff] at hex ⊢
  rw [resolve_domove, inodes_domove]
  exact List.mem_append_left _ ((List.mem_erase_of_ne hne).2 hex)

/-- C8, part of the claim: the two early-return guards of `move_file`. -/
theorem move_file_skips (fs : FS) (src : FPath) (destDir : String) (dry : Bool)
    (h : fs.ex src = false ∨
      (fs.ex ⟨destDir, src.base⟩ = true ∧
        fs.resolve ⟨destDir, src.base⟩ = fs.resolve src)) :
    move_file fs src destDir dry = (false, fs) := by
  unfold move_file
  rcases h with h | ⟨h1, h2⟩
  · simp [h]
  · by_cases hs : fs.ex src
    · simp [hs, h1, h2]
    · simp [hs]

theorem suffixName_inj (src : FPath) {n m : Nat}
    (h : suffixName src n = suffixName src m) : n = m := by
  unfold suffixName at h
  have h' := congrArg String.toList h
  rw [toList_append, toList_append, toList_append, toList_append,
    toList_append, toList_append] at h'
  have h1 := List.append_cancel_right h'
  have h2 := List.append_cancel_left h1
  exact natChars_inj n m (by simpa [String.toList] using h2)

theorem cand_inj (d : String) (src : FPath) {n m : Nat}
    (h : cand d src n = cand d src m) : n = m := by
  unfold cand at h
  exact suffixName_inj src (congrArg FPath.base h)

theorem resolve_of_not_mem_keys (fs : FS) (p : FPath)
    (h : p ∉ fs.aliases.map Prod.fst) : fs.resolve p = p := by
  unfold FS.resolve
  have : fs.aliases.find? (fun a => decide (a.1 = p)) = none := by
    rw [List.find?_eq_none]
    intro a ha
    simp only [decide_eq_true_eq]
    intro hap
    exact h (List.mem_map.2 ⟨a, ha, hap⟩)
  rw [this]

theorem exists_free_cand (fs : FS) (d : String) (src : FPath) (start : Nat) :
    ∃ k < conflictFuel fs, fs.ex (cand d src (start + k)) = false := by
  by_contra hcon
  push_neg at hcon
  have hall : ∀ k < conflictFuel fs, fs.ex (cand d src (start + k)) = true := by
    intro k hk
    have := hcon k hk
    simpa [Bool.not_eq_false] using this
  set F := conflictFuel fs with hF
  set L := (List.range F).map (fun k => cand d src (start + k)) with hL
  have hnodup : L.Nodup := by
    refine List.Nodup.map ?_ (List.nodup_range F)
    intro a b hab
    have := cand_inj d src hab
    omega
  have hlen : L.length = F := by simp [hL]
  have hexL : ∀ p ∈ L, fs.ex p = true := by
    intro p hp
    rcases List.mem_map.1 hp with ⟨k, hk, rfl⟩
    exact hall k (List.mem_range.1 hk)
  set keys := fs.aliases.map Prod.fst with hkeys
  set pk : FPath → Bool := fun p => decide (p ∈ keys) with hpk
  have hsplit := List.length_eq_length_filter_add (l := L) pk
  have h1 : (L.filter pk).length ≤ fs.aliases.length := by
    have hsub : L.filter pk ⊆ keys := by
      intro p hp
      have := List.of_mem_filter hp
      simpa [hpk] using this
    have := (List.Nodup.subperm (hnodup.filter pk) hsub).length_le
    simpa [hkeys] using this
  have h2 : (L.filter (fun p => !pk p)).length ≤ fs.inodes.length := by
    have hsub : L.filter (fun p => !pk p) ⊆ fs.inodes := by
      intro p hp
      have hmem : p ∈ L := List.mem_of_mem_filter hp
      have hnk : p ∉ keys := by
        have := List.of_mem_filter hp
        simpa [hpk] using this
      have hres : fs.resolve p = p := resolve_of_not_mem_keys fs p (by simpa [hkeys] using hnk)
      have := (ex_iff fs p).1 (hexL p hmem)
      rwa [hres] at this
    exact (List.Nodup.subperm (hnodup.filter _) hsub).length_le
  have : F ≤ fs.aliases.length + fs.inodes.length := by
    rw [← hlen]
    omega
  simp only [hF, conflictFuel] at this
  omega

theorem conflictDest_spec (fs : FS) (d : String) (src : FPath) :
    ∀ fuel n, (∃ k < fuel, fs.ex (cand d src (n + k)) = false) →
    ∃ m, n ≤ m ∧ conflictDest fs d src fuel n = cand d src m ∧
      fs.ex (cand d src m) = false ∧
      ∀ j, n ≤ j → j < m → fs.ex (cand d src j) = true := by
  intro fuel
  induction fuel with
  | zero => intro n h; rcases h with ⟨k, hk, _⟩; omega
  | succ fu ih =>
    intro n h
    by_cases hx : fs.ex (cand d src n)
    · have h' : ∃ k < fu, fs.ex (cand d src (n + 1 + k)) = false := by
        rcases h with ⟨k, hk, hfree⟩
        cases k with
        | zero => simp only [Nat.add_zero] at hfree; rw [hx] at hfree; cases hfree
        | succ k' =>
          exact ⟨k', by omega, by rw [show n + 1 + k' = n + (k' + 1) by omega]; exact hfree⟩
      rcases ih (n + 1) h' with ⟨m, hm1, hm2, hm3, hm4⟩
      refine ⟨m, by omega, ?_, hm3, ?_⟩
      · simpa [conflictDest, hx] using hm2
      · intro j hj1 hj2
        rcases Nat.eq_or_lt_of_le hj1 with rfl | hlt
        · exact hx
        · exact hm4 j hlt hj2
    · refine ⟨n, le_rfl, ?_, by simpa using hx, ?_⟩
      · simp [conflictDest, hx]
      · intro j hj1 hj2; omega

theorem conflictDest_free (fs : FS) (d : String) (src : FPath) :
    ∃ m, 1 ≤ m ∧ conflictDest fs d src (conflictFuel fs) 1 = cand d src m ∧
      fs.ex (cand d src m) = false ∧
      ∀ j, 1 ≤ j → j < m → fs.ex (cand d src j) = true := by
  have h := exists_free_cand fs d src 1
  rcases conflictDest_spec fs d src (conflictFuel fs) 1
    (by rcases h with ⟨k, hk, hfree⟩; exact ⟨k, hk, hfree⟩) with ⟨m, h1, h2, h3, h4⟩
  exact ⟨m, h1, h2, h3, h4⟩

/-- C1: in non-dry-run mode, when the candidate destination exists and is
a different file, the move goes to the first free `stem_n` name (`n ≥ 1`),
which did not exist at decision time, and no existing distinct file is
displaced. -/
theorem move_file_conflict (fs : FS) (src : FPath) (destDir : String)
    (hsrc : fs.ex src = true)
    (hd0 : fs.ex ⟨destDir, src.base⟩ = true)
    (hne : fs.resolve ⟨destDir, src.base⟩ ≠ fs.resolve src) :
    ∃ m, 1 ≤ m ∧
      cand destDir src m =
        ⟨destDir, pstem src.base ++ "_" ++ String.mk (natChars m) ++ psuffix src.base⟩ ∧
      fs.ex (cand destDir src m) = false ∧
      (∀ j, 1 ≤ j → j < m → fs.ex (cand destDir src j) = true) ∧
      (move_file fs src destDir false =
        if fs.moveOk src (cand destDir src m) then
          (true, (fs.mkdir destDir).domove src (cand destDir src m))
        else (false, fs.mkdir destDir)) ∧
      (∀ p, fs.ex p = true → fs.resolve p ≠ fs.resolve src →
        (move_file fs src destDir false).2.ex p = true) := by
  rcases conflictDest_free fs destDir src with ⟨m, hm1, hm2, hm3, hm4⟩
  have hmove : move_file fs src destDir false =
      if fs.moveOk src (cand destDir src m) then
        (true, (fs.mkdir destDir).domove src (cand destDir src m))
      else (false, fs.mkdir destDir) := by
    unfold move_file
    rw [hsrc]
    simp only [Bool.not_true, Bool.false_eq_true, if_false]
    rw [if_neg (fun hcon => hne hcon.2)]
    rw [if_pos hd0, hm2]
  refine ⟨m, hm1, rfl, hm3, hm4, hmove, ?_⟩
  intro p hp hpne
  rw [hmove]
  by_cases hok : fs.moveOk src (cand destDir src m)
  · rw [if_pos hok]
    have : ((fs.mkdir destDir).domove src (cand destDir src m)).ex p = true := by
      have hex' : (fs.mkdir destDir).ex p = true := hp
      exact ex_domove_of_ne _ _ _ _ hex' hpne
    exact this
  · rw [if_neg hok]
    exact hp

theorem move_file_skips_witness :
    move_file fsW ⟨"x", "nope.txt"⟩ "d" false = (false, fsW) :=
  move_file_skips fsW ⟨"x", "nope.txt"⟩ "d" false (Or.inl (by decide))

theorem move_file_conflict_witness :
    FS.ex fsConflict ⟨"s", "f.txt"⟩ = true ∧
    FS.ex fsConflict ⟨"d", "f.txt"⟩ = true ∧
    FS.resolve fsConflict ⟨"d", "f.txt"⟩ ≠ FS.resolve fsConflict ⟨"s", "f.txt"⟩ ∧
    (∃ m, 1 ≤ m ∧
      cand "d" ⟨"s", "f.txt"⟩ m =
        ⟨"d", pstem "f.txt" ++ "_" ++ String.mk (natChars m) ++ psuffix "f.txt"⟩ ∧
      fsConflict.ex (cand "d" ⟨"s", "f.txt"⟩ m) = false ∧
      (∀ j, 1 ≤ j → j < m → fsConflict.ex (cand "d" ⟨"s", "f.txt"⟩ j) = true) ∧
      (move_file fsConflict ⟨"s", "f.txt"⟩ "d" false =
        if fsConflict.moveOk ⟨"s", "f.txt"⟩ (cand "d" ⟨"s", "f.txt"⟩ m) then
          (true, (fsConflict.mkdir "d").domove ⟨"s", "f.txt"⟩ (cand "d" ⟨"s", "f.txt"⟩ m))
        else (false, fsConflict.mkdir "d")) ∧
      (∀ p, fsConflict.ex p = true →
        fsConflict.resolve p ≠ fsConflict.resolve ⟨"s", "f.txt"⟩ →
        (move_file fsConflict ⟨"s", "f.txt"⟩ "d" false).2.ex p = true)) :=
  ⟨by decide, by decide, by decide,
    move_file_conflict fsConflict ⟨"s", "f.txt"⟩ "d" (by decide) (by decide) (by decide)⟩

/-! ### Generic properties of the grouping fold -/

/-- The bucket that the grouping of `l` by `key` stores under `k`. -/
def bucketFor {κ : Type} [DecidableEq κ] (key : FPath → Option κ)
    (l : List FPath) (k : κ) : List FPath :=
  l.filter (fun f => decide (key f = some k))

/-- Invariant of the grouping fold after consuming the input prefix
`pref`: each bucket holds exactly the matching prefix elements in order,
keys are distinct, and absent keys have no matching element. -/
def GInv {κ : Type} [DecidableEq κ] (key : FPath → Option κ)
    (pref : List FPath) (acc : List (κ × List FPath)) : Prop :=
  (∀ e ∈ acc, e.2 = bucketFor key pref e.1) ∧
  ((acc.map Prod.fst).Nodup) ∧
  (∀ k, k ∉ acc.map Prod.fst → bucketFor key pref k = [])

theorem addToGroup_cases {κ : Type} [DecidableEq κ] :
    ∀ (acc : List (κ × List FPath)) (k : κ) (v : FPath),
    (k ∉ acc.map Prod.fst ∧ addToGroup acc k v = acc ++ [(k, [v])]) ∨
    (∃ pre b post, acc = pre ++ (k, b) :: post ∧ k ∉ pre.map Prod.fst ∧
      addToGroup acc k v = pre ++ (k, b ++ [v]) :: post) := by
  intro acc
  induction acc with
  | nil => intro k v; left; simp [addToGroup]
  | cons e rest ih =>
    intro k v
    obtain ⟨k', vs⟩ := e
    by_cases hk : k = k'
    · subst hk
      right
      exact ⟨[], vs, rest, by simp, by simp, by simp [addToGroup]⟩
    · rcases ih k v with ⟨h1, h2⟩ | ⟨pre, b, post, h1, h2, h3⟩
      · left
        refine ⟨?_, ?_⟩
        · simp only [List.map_cons, List.mem_cons]
          rintro (h | h)
          · exact hk h
          · exact h1 h
        · simp [addToGroup, hk, h2]
      · right
        refine ⟨(k', vs) :: pre, b, post, by simp [h1], ?_, ?_⟩
        · simp only [List.map_cons, List.mem_cons]
          rintro (h | h)
          · exact hk h
          · exact h2 h
        · simp [addToGroup, hk, h3]

theorem bucketFor_append_one {κ : Type} [DecidableEq κ] (key : FPath → Option κ)
    (pref : List FPath) (f : FPath) (k : κ) :
    bucketFor key (pref ++ [f]) k =
      bucketFor key pref k ++ (if key f = some k then [f] else []) := by
  unfold bucketFor
  rw [List.filter_append]
  by_cases h : key f = some k <;> simp [h]

theorem GInv_step {κ : Type} [DecidableEq κ] (key : FPath → Option κ)
    (pref : List FPath) (acc : List (κ × List FPath)) (f : FPath)
    (h : GInv key pref acc) :
    GInv key (pref ++ [f]) (groupIns key acc f) := by
  obtain ⟨hbuck, hkeys, habs⟩ := h
  unfold groupIns
  cases hkf : key f with
  | none =>
    refine ⟨?_, hkeys, ?_⟩
    · intro e he
      rw [bucketFor_append_one, hbuck e he, if_neg (by simp [hkf])]
      simp
    · intro k hk
      rw [bucketFor_append_one, habs k hk, if_neg (by simp [hkf])]
      simp
  | some k0 =>
    simp only
    rcases addToGroup_cases acc k0 f with ⟨habs0, heq⟩ | ⟨pre, b, post, hdec, hpre, heq⟩
    · rw [heq]
      refine ⟨?_, ?_, ?_⟩
      · intro e he
        rcases List.mem_append.1 he with he | he
        · have hne : e.1 ≠ k0 := fun hc => habs0 (hc ▸ List.mem_map.2 ⟨e, he, rfl⟩)
          rw [bucketFor_append_one, hbuck e he, if_neg (by rw [hkf]; simp only [Option.some.injEq]; exact fun hc => hne hc.symm)]
          simp
        · have : e = (k0, [f]) := by simpa using he
          subst this
          rw [bucketFor_append_one, habs k0 habs0, if_pos (by simp [hkf])]
          simp
      · rw [List.map_append]
        simp only [List.map_cons, List.map_nil]
        exact List.Nodup.append hkeys (List.nodup_singleton k0)
          (by intro a ha hb; simp only [List.mem_singleton] at hb; subst hb; exact habs0 ha)
      · intro k hk
        rw [List.map_append] at hk
        simp only [List.mem_append, List.map_cons, List.map_nil, List.mem_singleton,
          not_or] at hk
        rw [bucketFor_append_one, habs k hk.1, if_neg (by simp [hkf]; exact fun hc => hk.2 hc.symm)]
        simp
    · have hk0mem : (k0, b) ∈ acc := by rw [hdec]; exact List.mem_append_right _ (List.mem_cons_self _ _)
      have hkeysdec : acc.map Prod.fst = pre.map Prod.fst ++ k0 :: post.map Prod.fst := by
        rw [hdec]; simp
      have hk0post : k0 ∉ post.map Prod.fst := by
        rw [hkeysdec] at hkeys
        have := (List.nodup_append.1 hkeys).2.1
        exact (List.nodup_cons.1 this).1
      rw [heq]
      refine ⟨?_, ?_, ?_⟩
      · intro e he
        rcases List.mem_append.1 he with he | he
        · have hne : e.1 ≠ k0 := by
            intro hc
            exact hpre (hc ▸ List.mem_map.2 ⟨e, he, rfl⟩)
          have hemem : e ∈ acc := by rw [hdec]; exact List.mem_append_left _ he
          rw [bucketFor_append_one, hbuck e hemem, if_neg (by rw [hkf]; simp only [Option.some.injEq]; exact fun hc => hne hc.symm)]
          simp
        · rcases List.mem_cons.1 he with he | he
          · subst he
            rw [bucketFor_append_one, if_pos (by simp [hkf])]
            have := hbuck (k0, b) hk0mem
            simp only at this
            rw [← this]
          · have hne : e.1 ≠ k0 := by
              intro hc
              exact hk0post (hc ▸ List.mem_map.2 ⟨e, he, rfl⟩)
            have hemem : e ∈ acc := by
              rw [hdec]
              exact List.mem_append_right _ (List.mem_cons_of_mem _ he)
            rw [bucketFor_append_one, hbuck e hemem, if_neg (by rw [hkf]; simp only [Option.some.injEq]; exact fun hc => hne hc.symm)]
            simp
      · have : (pre ++ (k0, b ++ [f]) :: post).map Prod.fst = acc.map Prod.fst := by
          rw [hkeysdec]; simp
        rw [this]
        exact hkeys
      · intro k hk
        have hk' : k ∉ acc.map Prod.fst := by
          rw [hkeysdec]
          have : (pre ++ (k0, b ++ [f]) :: post).map Prod.fst =
              pre.map Prod.fst ++ k0 :: post.map Prod.fst := by simp
          rw [this] at hk
          exact hk
        have hne : k ≠ k0 := by
          intro hc
          subst hc
          exact hk' (by rw [hkeysdec]; exact List.mem_append_right _ (List.mem_cons_self _ _))
        rw [bucketFor_append_one, habs k hk', if_neg (by simp [hkf]; exact fun hc => hne hc.symm)]
        simp

theorem groupFold_inv {κ : Type} [DecidableEq κ] (key : FPath → Option κ) :
    ∀ (l pref : List FPath) (acc : List (κ × List FPath)), GInv key pref acc →
    GInv key (pref ++ l) (l.foldl (groupIns key) acc) := by
  intro l
  induction l with
  | nil => intro pref acc h; simpa using h
  | cons a t ih =>
    intro pref acc h
    have step := GInv_step key pref acc a h
    have := ih (pref ++ [a]) _ step
    simpa using this

theorem groupFold_ginv {κ : Type} [DecidableEq κ] (key : FPath → Option κ)
    (l : List FPath) : GInv key l (groupFold key l) := by
  have h0 : GInv key [] ([] : List (κ × List FPath)) :=
    ⟨by simp, by simp, by intro k _; rfl⟩
  have := groupFold_inv key l [] [] h0
  simpa [groupFold] using this

theorem mem_groupFold_bucket {κ : Type} [DecidableEq κ] {key : FPath → Option κ}
    {l : List FPath} {k : κ} {b : List FPath} (h : (k, b) ∈ groupFold key l) :
    b = bucketFor key l k :=
  (groupFold_ginv key l).1 (k, b) h

theorem mem_of_mem_bucket {κ : Type} [DecidableEq κ] {key : FPath → Option κ}
    {l : List FPath} {k : κ} {b : List FPath} {f : FPath}
    (h : (k, b) ∈ groupFold key l) (hf : f ∈ b) : f ∈ l ∧ key f = some k := by
  rw [mem_groupFold_bucket h] at hf
  unfold bucketFor at hf
  exact ⟨List.mem_of_mem_filter hf, by simpa using List.of_mem_filter hf⟩

theorem exists_bucket_of_key {κ : Type} [DecidableEq κ] {key : FPath → Option κ}
    {l : List FPath} {k : κ} {f : FPath} (hf : f ∈ l) (hk : key f = some k) :
    ∃ b, (k, b) ∈ groupFold key l ∧ f ∈ b := by
  have hfb : f ∈ bucketFor key l k := by
    unfold bucketFor
    exact List.mem_filter.2 ⟨hf, by simp [hk]⟩
  by_cases hmem : k ∈ (groupFold key l).map Prod.fst
  · rcases List.mem_map.1 hmem with ⟨e, he, hek⟩
    refine ⟨e.2, ?_, ?_⟩
    · have : e = (k, e.2) := by rw [← hek]
      rwa [← this]
    · rw [(groupFold_ginv key l).1 e he, hek]
      exact hfb
  · have := (groupFold_ginv key l).2.2 k hmem
    rw [this] at hfb
    cases hfb

theorem groupFold_keys_nodup {κ : Type} [DecidableEq κ] (key : FPath → Option κ)
    (l : List FPath) : ((groupFold key l).map Prod.fst).Nodup :=
  (groupFold_ginv key l).2.1

theorem groupFold_entry_unique {κ : Type} [DecidableEq κ] {key : FPath → Option κ}
    {l : List FPath} {k : κ} {b b' : List FPath}
    (h : (k, b) ∈ groupFold key l) (h' : (k, b') ∈ groupFold key l) : b = b' := by
  rw [mem_groupFold_bucket h, mem_groupFold_bucket h']

/-! ### Accumulating folds -/

theorem foldl_acc_append {β : Type} (F : β → List FPath) :
    ∀ (gs : List β) (a : List FPath),
    gs.foldl (fun acc c => acc ++ F c) a = a ++ gs.foldl (fun acc c => acc ++ F c) [] := by
  intro gs
  induction gs with
  | nil => intro a; simp
  | cons c t ih =>
    intro a
    simp only [List.foldl_cons]
    rw [ih (a ++ F c), ih ([] ++ F c)]
    simp

theorem mem_foldl_acc {β : Type} (F : β → List FPath) (gs : List β) (x : FPath) :
    x ∈ gs.foldl (fun acc c => acc ++ F c) [] ↔ ∃ c ∈ gs, x ∈ F c := by
  induction gs with
  | nil => simp
  | cons c t ih =>
    simp only [List.foldl_cons]
    rw [foldl_acc_append F t ([] ++ F c)]
    simp only [List.nil_append, List.mem_append, ih]
    constructor
    · rintro (h | ⟨c', hc', hx⟩)
      · exact ⟨c, by simp, h⟩
      · exact ⟨c', by simp [hc'], hx⟩
    · rintro ⟨c', hc', hx⟩
      rcases List.mem_cons.1 hc' with rfl | hc'
      · exact Or.inl hx
      · exact Or.inr ⟨c', hc', hx⟩

theorem nodup_foldl_acc {β : Type} (F : β → List FPath) :
    ∀ gs : List β, (∀ c ∈ gs, (F c).Nodup) →
    gs.Pairwise (fun c c' => ∀ x ∈ F c, x ∉ F c') →
    (gs.foldl (fun acc c => acc ++ F c) []).Nodup := by
  intro gs
  induction gs with
  | nil => intro _ _; simp
  | cons c t ih =>
    intro hnd hpw
    simp only [List.foldl_cons]
    rw [foldl_acc_append F t ([] ++ F c)]
    simp only [List.nil_append]
    have hpw' := List.pairwise_cons.1 hpw
    refine List.Nodup.append (hnd c (by simp)) (ih (fun c' hc' => hnd c' (by simp [hc'])) hpw'.2) ?_
    intro x hx hx'
    rcases (mem_foldl_acc F t x).1 hx' with ⟨c', hc', hxc'⟩
    exact hpw'.1 c' hc' x hx hxc'

theorem filter_foldl_acc {β : Type} (F : β → List FPath) (p : FPath → Bool) :
    ∀ gs : List β,
    (gs.foldl (fun acc c => acc ++ F c) []).filter p =
      gs.foldl (fun acc c => acc ++ (F c).filter p) [] := by
  intro gs
  induction gs with
  | nil => simp
  | cons c t ih =>
    simp only [List.foldl_cons]
    rw [foldl_acc_append F t ([] ++ F c),
      foldl_acc_append (fun c => (F c).filter p) t ([] ++ (F c).filter p)]
    simp only [List.nil_append, List.filter_append, ih]

theorem foldl_acc_all_nil {β : Type} (F : β → List FPath) :
    ∀ gs : List β, (∀ c ∈ gs, F c = []) →
    gs.foldl (fun acc c => acc ++ F c) [] = [] := by
  intro gs
  induction gs with
  | nil => intro _; rfl
  | cons c t ih =>
    intro h
    simp only [List.foldl_cons]
    rw [foldl_acc_append F t ([] ++ F c)]
    rw [h c (by simp), ih (fun c' hc' => h c' (by simp [hc']))]
    rfl

/-! ### `by_hash` as a grouping of the hashed candidate files -/

theorem by_hash_eq (fs : FS) (files : List FPath) :
    by_hash fs files = groupFold (file_hash fs) (hashedFiles fs files) := by
  unfold by_hash hashedFiles groupFold
  have main : ∀ (gs : List (Nat × List FPath)) (g : List (Nat × List FPath)),
      gs.foldl (fun g c =>
        if c.2.length < 2 then g else c.2.foldl (groupIns (file_hash fs)) g) g =
      (gs.foldl (fun acc c => acc ++ (if c.2.length < 2 then [] else c.2)) []).foldl
        (groupIns (file_hash fs)) g := by
    intro gs
    induction gs with
    | nil => intro g; rfl
    | cons c t ih =>
      intro g
      simp only [List.foldl_cons]
      rw [foldl_acc_append (fun c => if c.2.length < 2 then [] else c.2) t]
      by_cases hc : c.2.length < 2
      · rw [if_pos hc, if_pos hc, ih]
        simp
      · rw [if_neg hc, if_neg hc, ih]
        rw [List.foldl_append]
        simp
  have hsame : (by_size fs files).foldl
      (fun acc c => if c.2.length < 2 then acc else acc ++ c.2) [] =
      (by_size fs files).foldl
        (fun acc c => acc ++ (if c.2.length < 2 then [] else c.2)) [] := by
    congr 1
    funext acc c
    by_cases hc : c.2.length < 2 <;> simp [hc]
  rw [main (by_size fs files) [], ← hsame]

theorem mem_hashedFiles (fs : FS) (files : List FPath) (f : FPath) :
    f ∈ hashedFiles fs files ↔
      ∃ c ∈ by_size fs files, ¬c.2.length < 2 ∧ f ∈ c.2 := by
  unfold hashedFiles
  have hsame : (by_size fs files).foldl
      (fun acc c => if c.2.length < 2 then acc else acc ++ c.2) [] =
      (by_size fs files).foldl
        (fun acc c => acc ++ (if c.2.length < 2 then [] else c.2)) [] := by
    congr 1
    funext acc c
    by_cases hc : c.2.length < 2 <;> simp [hc]
  rw [hsame, mem_foldl_acc]
  constructor
  · rintro ⟨c, hc, hf⟩
    by_cases h2 : c.2.length < 2
    · rw [if_pos h2] at hf; cases hf
    · rw [if_neg h2] at hf; exact ⟨c, hc, h2, hf⟩
  · rintro ⟨c, hc, h2, hf⟩
    exact ⟨c, hc, by rw [if_neg h2]; exact hf⟩

theorem hashedFiles_sub (fs : FS) (files : List FPath) :
    hashedFiles fs files ⊆ files := by
  intro f hf
  rcases (mem_hashedFiles fs files f).1 hf with ⟨c, hc, _, hfc⟩
  have : (c.1, c.2) ∈ groupFold (sizeKey fs) files := by
    simpa [by_size] using hc
  exact (mem_of_mem_bucket this hfc).1

theorem sizeKey_of_mem_hashedFiles (fs : FS) (files : List FPath) (f : FPath)
    (hf : f ∈ hashedFiles fs files) : ∃ k, sizeKey fs f = some k := by
  rcases (mem_hashedFiles fs files f).1 hf with ⟨c, hc, _, hfc⟩
  have : (c.1, c.2) ∈ groupFold (sizeKey fs) files := by
    simpa [by_size] using hc
  exact ⟨c.1, (mem_of_mem_bucket this hfc).2⟩

theorem hashedFiles_nodup (fs : FS) (files : List FPath)
    (hnd : files.Nodup) : (hashedFiles fs files).Nodup := by
  unfold hashedFiles
  have hsame : (by_size fs files).foldl
      (fun acc c => if c.2.length < 2 then acc else acc ++ c.2) [] =
      (by_size fs files).foldl
        (fun acc c => acc ++ (if c.2.length < 2 then [] else c.2)) [] := by
    congr 1
    funext acc c
    by_cases hc : c.2.length < 2 <;> simp [hc]
  rw [hsame]
  have hkeys : ((by_size fs files).map Prod.fst).Nodup :=
    groupFold_keys_nodup (sizeKey fs) files
  have hpwkeys : (by_size fs files).Pairwise (fun c c' => c.1 ≠ c'.1) :=
    (List.pairwise_map).1 hkeys
  refine nodup_foldl_acc _ _ ?_ ?_
  · intro c hc
    by_cases h2 : c.2.length < 2
    · simp [h2]
    · rw [if_neg h2]
      have : (c.1, c.2) ∈ groupFold (sizeKey fs) files := by
        simpa [by_size] using hc
      rw [mem_groupFold_bucket this]
      exact hnd.filter _
  · refine hpwkeys.imp_of_mem ?_
    intro c c' hc hc' hne x hx hx'
    by_cases h2 : c.2.length < 2
    · rw [if_pos h2] at hx; cases hx
    · by_cases h2' : c'.2.length < 2
      · rw [if_pos h2'] at hx'; simp at hx'
      · rw [if_neg h2] at hx
        rw [if_neg h2'] at hx'
        have hm : (c.1, c.2) ∈ groupFold (sizeKey fs) files := by
          simpa [by_size] using hc
        have hm' : (c'.1, c'.2) ∈ groupFold (sizeKey fs) files := by
          simpa [by_size] using hc'
        have k1 := (mem_of_mem_bucket hm hx).2
        have k2 := (mem_of_mem_bucket hm' hx').2
        rw [k1] at k2
        exact hne (Option.some.inj k2)

/-! ### The stable sort by modification time -/

theorem sortByMtime_cons (fs : FS) (a : FPath) (t : List FPath) :
    sortByMtime fs (a :: t) = insortMtime fs a (sortByMtime fs t) := rfl

theorem insort_perm (fs : FS) (x : FPath) :
    ∀ l, List.Perm (insortMtime fs x l) (x :: l) := by
  intro l
  induction l with
  | nil => exact List.Perm.refl _
  | cons y ys ih =>
    unfold insortMtime
    by_cases h : get_mtime fs x ≤ get_mtime fs y
    · rw [if_pos h]
    · rw [if_neg h]
      exact (ih.cons y).trans (List.Perm.swap x y ys)

theorem sortByMtime_perm (fs : FS) : ∀ l, List.Perm (sortByMtime fs l) l := by
  intro l
  induction l with
  | nil => exact List.Perm.refl _
  | cons a t ih =>
    rw [sortByMtime_cons]
    exact (insort_perm fs a (sortByMtime fs t)).trans (ih.cons a)

theorem sortByMtime_length (fs : FS) (l : List FPath) :
    (sortByMtime fs l).length = l.length :=
  (sortByMtime_perm fs l).length_eq

theorem mem_sortByMtime (fs : FS) (l : List FPath) (x : FPath) :
    x ∈ sortByMtime fs l ↔ x ∈ l :=
  (sortByMtime_perm fs l).mem_iff

theorem sortByMtime_nodup (fs : FS) (l : List FPath) (h : l.Nodup) :
    (sortByMtime fs l).Nodup :=
  ((sortByMtime_perm fs l).nodup_iff).2 h

theorem sortByMtime_head_min (fs : FS) :
    ∀ (l : List FPath) s rest, sortByMtime fs l = s :: rest →
    ∀ x ∈ l, get_mtime fs s ≤ get_mtime fs x := by
  intro l
  induction l with
  | nil => intro s rest h; cases h
  | cons a t ih =>
    intro s rest h x hx
    rw [sortByMtime_cons] at h
    cases hsort : sortByMtime fs t with
    | nil =>
      have ht : t = [] := by
        have := (sortByMtime_perm fs t).length_eq
        rw [hsort] at this
        exact List.length_eq_zero.1 this.symm
      rw [hsort] at h
      unfold insortMtime at h
      injection h with h1 h2
      subst h1
      subst ht
      rcases List.mem_singleton.1 hx with rfl
      exact le_rfl
    | cons s' r' =>
      rw [hsort] at h
      unfold insortMtime at h
      by_cases hle : get_mtime fs a ≤ get_mtime fs s'
      · rw [if_pos hle] at h
        injection h with h1 h2
        subst h1
        rcases List.mem_cons.1 hx with rfl | hx
        · exact le_rfl
        · exact le_trans hle (ih s' r' hsort x hx)
      · rw [if_neg hle] at h
        injection h with h1 h2
        subst h1
        rcases List.mem_cons.1 hx with rfl | hx
        · exact le_of_lt (lt_of_not_le hle)
        · exact ih s' r' hsort x hx

theorem sortByMtime_head_first (fs : FS) :
    ∀ (l : List FPath) s rest, sortByMtime fs l = s :: rest →
    ∃ l1 l2, l = l1 ++ s :: l2 ∧ ∀ x ∈ l1, get_mtime fs s < get_mtime fs x := by
  intro l
  induction l with
  | nil => intro s rest h; cases h
  | cons a t ih =>
    intro s rest h
    rw [sortByMtime_cons] at h
    cases hsort : sortByMtime fs t with
    | nil =>
      have ht : t = [] := by
        have := (sortByMtime_perm fs t).length_eq
        rw [hsort] at this
        exact List.length_eq_zero.1 this.symm
      rw [hsort] at h
      unfold insortMtime at h
      injection h with h1 h2
      subst h1
      exact ⟨[], t, rfl, by intro x hx; cases hx⟩
    | cons s' r' =>
      rw [hsort] at h
      unfold insortMtime at h
      by_cases hle : get_mtime fs a ≤ get_mtime fs s'
      · rw [if_pos hle] at h
        injection h with h1 h2
        subst h1
        exact ⟨[], t, rfl, by intro x hx; cases hx⟩
      · rw [if_neg hle] at h
        injection h with h1 h2
        subst h1
        rcases ih s' r' hsort with ⟨l1, l2, hdec, hmin⟩
        refine ⟨a :: l1, l2, by rw [hdec]; simp, ?_⟩
        intro x hx
        rcases List.mem_cons.1 hx with rfl | hx
        · exact lt_of_not_le hle
        · exact hmin x hx

/-! ### Structure of `find_duplicates` -/

theorem mem_find_duplicates (fs : FS) (files : List FPath) (x : FPath) :
    x ∈ find_duplicates fs files ↔
      ∃ c ∈ by_hash fs files, 1 < c.2.length ∧ x ∈ (sortByMtime fs c.2).drop 1 := by
  unfold find_duplicates
  have hsame : (by_hash fs files).foldl
      (fun acc c => if 1 < c.2.length then acc ++ (sortByMtime fs c.2).drop 1 else acc) [] =
      (by_hash fs files).foldl
        (fun acc c => acc ++ (if 1 < c.2.length then (sortByMtime fs c.2).drop 1 else [])) [] := by
    congr 1
    funext acc c
    by_cases hc : 1 < c.2.length <;> simp [hc]
  rw [hsame, mem_foldl_acc]
  constructor
  · rintro ⟨c, hc, hx⟩
    by_cases h1 : 1 < c.2.length
    · rw [if_pos h1] at hx; exact ⟨c, hc, h1, hx⟩
    · rw [if_neg h1] at hx; cases hx
  · rintro ⟨c, hc, h1, hx⟩
    exact ⟨c, hc, by rw [if_pos h1]; exact hx⟩

theorem by_hash_bucket {fs : FS} {files : List FPath} {c : Nat × List FPath}
    (h : c ∈ by_hash fs files) :
    c.2 = bucketFor (file_hash fs) (hashedFiles fs files) c.1 := by
  obtain ⟨k, b⟩ := c
  rw [by_hash_eq] at h
  exact mem_groupFold_bucket h

theorem mem_by_hash_member {fs : FS} {files : List FPath} {c : Nat × List FPath}
    {x : FPath} (h : c ∈ by_hash fs files) (hx : x ∈ c.2) :
    x ∈ hashedFiles fs files ∧ file_hash fs x = some c.1 := by
  obtain ⟨k, b⟩ := c
  rw [by_hash_eq] at h
  exact mem_of_mem_bucket h hx

theorem find_duplicates_sub (fs : FS) (files : List FPath) :
    find_duplicates fs files ⊆ files := by
  intro x hx
  rcases (mem_find_duplicates fs files x).1 hx with ⟨c, hc, -, hdrop⟩
  have hmem : x ∈ c.2 := by
    have := List.mem_of_mem_drop hdrop
    exact (mem_sortByMtime fs c.2 x).1 this
  exact hashedFiles_sub fs files (mem_by_hash_member hc hmem).1

theorem find_duplicates_nodup (fs : FS) (files : List FPath)
    (hnd : files.Nodup) : (find_duplicates fs files).Nodup := by
  unfold find_duplicates
  have hsame : (by_hash fs files).foldl
      (fun acc c => if 1 < c.2.length then acc ++ (sortByMtime fs c.2).drop 1 else acc) [] =
      (by_hash fs files).foldl
        (fun acc c => acc ++ (if 1 < c.2.length then (sortByMtime fs c.2).drop 1 else [])) [] := by
    congr 1
    funext acc c
    by_cases hc : 1 < c.2.length <;> simp [hc]
  rw [hsame]
  have hhnd := hashedFiles_nodup fs files hnd
  have hkeys : ((by_hash fs files).map Prod.fst).Nodup := by
    rw [by_hash_eq]
    exact groupFold_keys_nodup (file_hash fs) (hashedFiles fs files)
  have hpwkeys : (by_hash fs files).Pairwise (fun c c' => c.1 ≠ c'.1) :=
    (List.pairwise_map).1 hkeys
  refine nodup_foldl_acc _ _ ?_ ?_
  · intro c hc
    by_cases h1 : 1 < c.2.length
    · rw [if_pos h1]
      refine List.Nodup.sublist (List.drop_sublist 1 _) ?_
      refine sortByMtime_nodup fs c.2 ?_
      rw [by_hash_bucket hc]
      exact hhnd.filter _
    · simp [h1]
  · refine hpwkeys.imp_of_mem ?_
    intro c c' hc hc' hne x hx hx'
    by_cases h1 : 1 < c.2.length
    · by_cases h1' : 1 < c'.2.length
      · rw [if_pos h1] at hx
        rw [if_pos h1'] at hx'
        have hxc : x ∈ c.2 :=
          (mem_sortByMtime fs c.2 x).1 (List.mem_of_mem_drop hx)
        have hxc' : x ∈ c'.2 :=
          (mem_sortByMtime fs c'.2 x).1 (List.mem_of_mem_drop hx')
        have k1 := (mem_by_hash_member hc hxc).2
        have k2 := (mem_by_hash_member hc' hxc').2
        rw [k1] at k2
        exact hne (Option.some.inj k2)
      · rw [if_neg h1'] at hx'; simp at hx'
    · rw [if_neg h1] at hx; simp at hx

theorem sizeKey_some_iff (fs : FS) (f : FPath) (k : Nat) :
    sizeKey fs f = some k ↔ statSize fs f = some k ∧ 0 < k := by
  cases h : statSize fs f with
  | none => simp [sizeKey, h]
  | some sz =>
    by_cases h0 : 0 < sz
    · simp only [sizeKey, h, if_pos h0, Option.some.injEq]
      constructor
      · rintro rfl; exact ⟨rfl, h0⟩
      · rintro ⟨h1, -⟩; exact h1
    · simp only [sizeKey, h, if_neg h0]
      constructor
      · intro h'; cases h'
      · rintro ⟨h1, h2⟩
        injection h1 with h''
        subst h''
        exact absurd h2 h0

/-- C4: every hash-grouping cluster has all members with the bucket's
digest, a readable positive size, and (absent digest collisions, as the
collision-freedom hypothesis states) identical size. -/
theorem by_hash_same_digest_size (fs : FS) (files : List FPath)
    (hcol : ∀ p q h, file_hash fs p = some h → file_hash fs q = some h →
      statSize fs p = statSize fs q) :
    ∀ c ∈ by_hash fs files, ∀ x ∈ c.2,
      file_hash fs x = some c.1 ∧
      (∃ sz, 0 < sz ∧ statSize fs x = some sz) ∧
      ∀ y ∈ c.2, statSize fs y = statSize fs x := by
  intro c hcmem x hx
  have h1 := mem_by_hash_member hcmem hx
  refine ⟨h1.2, ?_, ?_⟩
  · rcases sizeKey_of_mem_hashedFiles fs files x h1.1 with ⟨k, hk⟩
    rw [sizeKey_some_iff] at hk
    exact ⟨k, hk.2, hk.1⟩
  · intro y hy
    have h2 := mem_by_hash_member hcmem hy
    exact hcol y x c.1 h2.2 h1.2

/-- C6: a file with unreadable size, zero size, or failed hashing never
appears in the duplicate list. -/
theorem find_duplicates_excludes (fs : FS) (files : List FPath) (f : FPath)
    (h : statSize fs f = none ∨ statSize fs f = some 0 ∨ file_hash fs f = none) :
    f ∉ find_duplicates fs files := by
  intro hf
  rcases (mem_find_duplicates fs files f).1 hf with ⟨c, hc, -, hdrop⟩
  have hmem : f ∈ c.2 := (mem_sortByMtime _ _ _).1 (List.mem_of_mem_drop hdrop)
  have h2 := mem_by_hash_member hc hmem
  rcases sizeKey_of_mem_hashedFiles fs files f h2.1 with ⟨k, hk⟩
  rw [sizeKey_some_iff] at hk
  rcases h with h | h | h
  · rw [h] at hk; cases hk.1
  · rw [h] at hk
    have := hk.1
    injection this with h''
    omega
  · rw [h2.2] at h; cases h

/-- C7: a file whose stat size is shared by no other input file is never
hashed and never appears in the duplicate list. -/
theorem unique_size_unhashed (fs : FS) (files : List FPath) (f : FPath)
    (hcount : (files.filter (fun g => decide (statSize fs g = statSize fs f))).length < 2) :
    f ∉ hashedFiles fs files ∧ f ∉ find_duplicates fs files := by
  have h1 : f ∉ hashedFiles fs files := by
    intro hmem
    rcases (mem_hashedFiles fs files f).1 hmem with ⟨c, hc, hlen, hfc⟩
    have hsz : (c.1, c.2) ∈ groupFold (sizeKey fs) files := by
      simpa [by_size] using hc
    have hbucket := mem_groupFold_bucket hsz
    have hkey := (mem_of_mem_bucket hsz hfc).2
    have hkey' := (sizeKey_some_iff fs f c.1).1 hkey
    have hsub : c.2.Sublist
        (files.filter (fun g => decide (statSize fs g = statSize fs f))) := by
      rw [hbucket]
      unfold bucketFor
      refine List.monotone_filter_right files ?_
      intro a ha
      simp only [decide_eq_true_eq] at ha ⊢
      rw [((sizeKey_some_iff fs a c.1).1 ha).1, hkey'.1]
    have := hsub.length_le
    omega
  refine ⟨h1, ?_⟩
  intro hfd
  rcases (mem_find_duplicates fs files f).1 hfd with ⟨c, hc, -, hdrop⟩
  have hmem : f ∈ c.2 := (mem_sortByMtime _ _ _).1 (List.mem_of_mem_drop hdrop)
  exact h1 (mem_by_hash_member hc hmem).1

theorem sizeKey_congr (fs : FS) (x y : FPath)
    (h : statSize fs y = statSize fs x) : sizeKey fs y = sizeKey fs x := by
  unfold sizeKey
  rw [h]

/-- Under collision-freedom, every hash bucket is a sublist of the input
(its members appear in input order). -/
theorem by_hash_bucket_sublist (fs : FS) (files : List FPath)
    (hcol : ∀ p q h, file_hash fs p = some h → file_hash fs q = some h →
      statSize fs p = statSize fs q)
    {c : Nat × List FPath} (hcm : c ∈ by_hash fs files) (hne : c.2 ≠ []) :
    c.2.Sublist files := by
  have hb := by_hash_bucket hcm
  obtain ⟨x, hx⟩ := List.exists_mem_of_ne_nil c.2 hne
  have hxh := mem_by_hash_member hcm hx
  rcases (mem_hashedFiles fs files x).1 hxh.1 with ⟨c0, hc0, hsel0, hxc0⟩
  have hc0g : (c0.1, c0.2) ∈ groupFold (sizeKey fs) files := by
    simpa [by_size] using hc0
  have hxkey := (mem_of_mem_bucket hc0g hxc0).2
  set hp : FPath → Bool := fun g => decide (file_hash fs g = some c.1) with hhp
  have hfilter : c.2 = (hashedFiles fs files).filter hp := by
    rw [hb]; rfl
  set F : Nat × List FPath → List FPath :=
    fun c' => if c'.2.length < 2 then [] else c'.2 with hF
  have hhf : hashedFiles fs files =
      (by_size fs files).foldl (fun acc c' => acc ++ F c') [] := by
    unfold hashedFiles
    congr 1
    funext acc c'
    by_cases h2 : c'.2.length < 2 <;> simp [hF, h2]
  set G : Nat × List FPath → List FPath := fun c' => (F c').filter hp with hG
  have hcG : c.2 = (by_size fs files).foldl (fun acc c' => acc ++ G c') [] := by
    rw [hfilter, hhf, filter_foldl_acc]
  rcases List.append_of_mem hc0 with ⟨pre, post, hdec⟩
  have hkeys : ((by_size fs files).map Prod.fst).Nodup :=
    groupFold_keys_nodup (sizeKey fs) files
  rw [hdec] at hkeys
  rw [List.map_append, List.map_cons] at hkeys
  have hkparts := List.nodup_append.1 hkeys
  have hprene : ∀ c' ∈ pre, c'.1 ≠ c0.1 := by
    intro c' hc' hcc
    exact hkparts.2.2 (List.mem_map.2 ⟨c', hc', hcc⟩) (List.mem_cons_self _ _)
  have hpostne : ∀ c' ∈ post, c'.1 ≠ c0.1 := by
    intro c' hc' hcc
    have := (List.nodup_cons.1 hkparts.2.1).1
    exact this (hcc ▸ List.mem_map.2 ⟨c', hc', rfl⟩)
  have hGnil : ∀ c' ∈ by_size fs files, c'.1 ≠ c0.1 → G c' = [] := by
    intro c' hc' hcc
    by_cases h2 : c'.2.length < 2
    · simp [hG, hF, h2]
    · simp only [hG, hF, if_neg h2]
      rw [List.filter_eq_nil_iff]
      intro y hy hpy
      have hyh : file_hash fs y = some c.1 := by
        simpa [hhp] using hpy
      have hc'g : (c'.1, c'.2) ∈ groupFold (sizeKey fs) files := by
        simpa [by_size] using hc'
      have hykey := (mem_of_mem_bucket hc'g hy).2
      have hss := hcol y x c.1 hyh hxh.2
      have := sizeKey_congr fs x y hss
      rw [hykey, hxkey] at this
      exact hcc (Option.some.inj this)
  have hc2 : c.2 = G c0 := by
    rw [hcG, hdec, List.foldl_append]
    have hpre0 : pre.foldl (fun acc c' => acc ++ G c') [] = [] :=
      foldl_acc_all_nil G pre (fun c' hc' =>
        hGnil c' (hdec ▸ List.mem_append_left _ hc') (hprene c' hc'))
    rw [hpre0]
    simp only [List.foldl_cons, List.nil_append]
    rw [foldl_acc_append G post (G c0)]
    have hpost0 : post.foldl (fun acc c' => acc ++ G c') [] = [] :=
      foldl_acc_all_nil G post (fun c' hc' =>
        hGnil c' (hdec ▸ List.mem_append_right _ (List.mem_cons_of_mem _ hc'))
          (hpostne c' hc'))
    rw [hpost0, List.append_nil]
  have hc0b := mem_groupFold_bucket hc0g
  rw [hc2]
  have hsel : G c0 = c0.2.filter hp := by
    simp [hG, hF, hsel0]
  rw [hsel, hc0b]
  unfold bucketFor
  exact ((files.filter _).filter_sublist).trans files.filter_sublist

/-- C2: in every duplicate cluster the survivor is the first cluster
member attaining the minimal modification time (unreadable time = 0); it
is never returned, while the other N-1 members are exactly the cluster's
contribution to the returned duplicate list; cluster members appear in
input order. -/
theorem find_duplicates_survivor (fs : FS) (files : List FPath)
    (hnd : files.Nodup)
    (hcol : ∀ p q h, file_hash fs p = some h → file_hash fs q = some h →
      statSize fs p = statSize fs q) :
    ∀ c ∈ by_hash fs files, 2 ≤ c.2.length →
    ∃ s rest, sortByMtime fs c.2 = s :: rest ∧
      rest.length = c.2.length - 1 ∧
      s ∈ c.2 ∧
      s ∉ find_duplicates fs files ∧
      (∀ x ∈ c.2, x ∈ find_duplicates fs files ↔ x ∈ rest) ∧
      (∀ x ∈ c.2, get_mtime fs s ≤ get_mtime fs x) ∧
      (∃ l1 l2, c.2 = l1 ++ s :: l2 ∧ ∀ x ∈ l1, get_mtime fs s < get_mtime fs x) ∧
      (∀ x, statMtime fs x = none → get_mtime fs x = 0) ∧
      c.2.Sublist files := by
  intro c hc h2
  have hlen : (sortByMtime fs c.2).length = c.2.length := sortByMtime_length fs c.2
  cases hs : sortByMtime fs c.2 with
  | nil =>
    rw [hs] at hlen
    simp at hlen
    omega
  | cons s rest =>
    have hnodc : c.2.Nodup := by
      rw [by_hash_bucket hc]
      exact (hashedFiles_nodup fs files hnd).filter _
    have hsmem : s ∈ c.2 := by
      rw [← mem_sortByMtime fs c.2 s, hs]
      simp
    have hrest : rest = (sortByMtime fs c.2).drop 1 := by rw [hs]; rfl
    have hiff : ∀ x ∈ c.2, (x ∈ find_duplicates fs files ↔ x ∈ rest) := by
      intro x hx
      constructor
      · intro hfd
        rcases (mem_find_duplicates fs files x).1 hfd with ⟨c', hc', h1', hdrop⟩
        have hxc' : x ∈ c'.2 :=
          (mem_sortByMtime _ _ _).1 (List.mem_of_mem_drop hdrop)
        have k1 := (mem_by_hash_member hc hx).2
        have k2 := (mem_by_hash_member hc' hxc').2
        rw [k1] at k2
        have hkeq : c.1 = c'.1 := Option.some.inj k2
        have hbeq : c.2 = c'.2 := by
          rw [by_hash_bucket hc, by_hash_bucket hc', hkeq]
        rw [hrest, hbeq]
        exact hdrop
      · intro hr
        refine (mem_find_duplicates fs files x).2 ⟨c, hc, by omega, ?_⟩
        rw [← hrest]
        exact hr
    have hsnodup : (sortByMtime fs c.2).Nodup := sortByMtime_nodup fs c.2 hnodc
    refine ⟨s, rest, rfl, ?_, hsmem, ?_, hiff, ?_, ?_, ?_, ?_⟩
    · rw [hs] at hlen
      simp only [List.length_cons] at hlen
      omega
    · intro hsfd
      have := (hiff s hsmem).1 hsfd
      rw [hs] at hsnodup
      exact (List.nodup_cons.1 hsnodup).1 this
    · exact sortByMtime_head_min fs c.2 s rest hs
    · exact sortByMtime_head_first fs c.2 s rest hs
    · intro x hx
      simp [get_mtime, hx]
    · exact by_hash_bucket_sublist fs files hcol hc (by
        intro hnil
        rw [hnil] at h2
        simp at h2)

theorem fsW_hcol : ∀ p q h, file_hash fsW p = some h → file_hash fsW q = some h →
    statSize fsW p = statSize fsW q := by
  intro p q h hp hq
  unfold file_hash at hp hq
  unfold statSize
  cases hep : fsW.ex p with
  | false => rw [hep] at hp; simp at hp
  | true =>
    cases heq2 : fsW.ex q with
    | false => rw [heq2] at hq; simp at hq
    | true =>
      simp only [hep, heq2]
      rfl

theorem by_hash_same_digest_size_witness :
    ((7, ([⟨"s", "a.txt"⟩, ⟨"s", "b.txt"⟩, ⟨"s", "c.txt"⟩] : List FPath)) ∈
      by_hash fsW filesW) ∧
    ((⟨"s", "a.txt"⟩ : FPath) ∈
      ([⟨"s", "a.txt"⟩, ⟨"s", "b.txt"⟩, ⟨"s", "c.txt"⟩] : List FPath)) ∧
    (file_hash fsW ⟨"s", "a.txt"⟩ = some 7 ∧
      (∃ sz, 0 < sz ∧ statSize fsW ⟨"s", "a.txt"⟩ = some sz) ∧
      ∀ y ∈ ([⟨"s", "a.txt"⟩, ⟨"s", "b.txt"⟩, ⟨"s", "c.txt"⟩] : List FPath),
        statSize fsW y = statSize fsW ⟨"s", "a.txt"⟩) :=
  ⟨by decide, by decide,
    by_hash_same_digest_size fsW filesW fsW_hcol
      (7, [⟨"s", "a.txt"⟩, ⟨"s", "b.txt"⟩, ⟨"s", "c.txt"⟩]) (by decide)
      ⟨"s", "a.txt"⟩ (by decide)⟩

theorem find_duplicates_excludes_witness :
    (statSize fsW ⟨"q", "ghost.txt"⟩ = none ∨
      statSize fsW ⟨"q", "ghost.txt"⟩ = some 0 ∨
      file_hash fsW ⟨"q", "ghost.txt"⟩ = none) ∧
    ⟨"q", "ghost.txt"⟩ ∉ find_duplicates fsW filesW :=
  ⟨Or.inl (by decide),
    find_duplicates_excludes fsW filesW ⟨"q", "ghost.txt"⟩ (Or.inl (by decide))⟩

theorem unique_size_unhashed_witness :
    ((filesW.filter (fun g =>
        decide (statSize fsSizes g = statSize fsSizes ⟨"s", "a.txt"⟩))).length < 2) ∧
    (⟨"s", "a.txt"⟩ ∉ hashedFiles fsSizes filesW ∧
      ⟨"s", "a.txt"⟩ ∉ find_duplicates fsSizes filesW) :=
  ⟨by decide, unique_size_unhashed fsSizes filesW ⟨"s", "a.txt"⟩ (by decide)⟩

theorem find_duplicates_survivor_witness :
    filesW.Nodup ∧
    ((7, ([⟨"s", "a.txt"⟩, ⟨"s", "b.txt"⟩, ⟨"s", "c.txt"⟩] : List FPath)) ∈
      by_hash fsW filesW) ∧
    2 ≤ ([⟨"s", "a.txt"⟩, ⟨"s", "b.txt"⟩, ⟨"s", "c.txt"⟩] : List FPath).length ∧
    (∃ s rest,
      sortByMtime fsW [⟨"s", "a.txt"⟩, ⟨"s", "b.txt"⟩, ⟨"s", "c.txt"⟩] = s :: rest ∧
      rest.length =
        ([⟨"s", "a.txt"⟩, ⟨"s", "b.txt"⟩, ⟨"s", "c.txt"⟩] : List FPath).length - 1 ∧
      s ∈ ([⟨"s", "a.txt"⟩, ⟨"s", "b.txt"⟩, ⟨"s", "c.txt"⟩] : List FPath) ∧
      s ∉ find_duplicates fsW filesW ∧
      (∀ x ∈ ([⟨"s", "a.txt"⟩, ⟨"s", "b.txt"⟩, ⟨"s", "c.txt"⟩] : List FPath),
        x ∈ find_duplicates fsW filesW ↔ x ∈ rest) ∧
      (∀ x ∈ ([⟨"s", "a.txt"⟩, ⟨"s", "b.txt"⟩, ⟨"s", "c.txt"⟩] : List FPath),
        get_mtime fsW s ≤ get_mtime fsW x) ∧
      (∃ l1 l2, ([⟨"s", "a.txt"⟩, ⟨"s", "b.txt"⟩, ⟨"s", "c.txt"⟩] : List FPath) =
        l1 ++ s :: l2 ∧ ∀ x ∈ l1, get_mtime fsW s < get_mtime fsW x) ∧
      (∀ x, statMtime fsW x = none → get_mtime fsW x = 0) ∧
      List.Sublist [⟨"s", "a.txt"⟩, ⟨"s", "b.txt"⟩, ⟨"s", "c.txt"⟩] filesW) :=
  ⟨by decide, by decide, by decide,
    find_duplicates_survivor fsW filesW (by decide) fsW_hcol
      (7, [⟨"s", "a.txt"⟩, ⟨"s", "b.txt"⟩, ⟨"s", "c.txt"⟩]) (by decide) (by decide)⟩

/-- C9: in the by-date bucketing, a readable future modification time
lands in `this_week`, and `unknown` is used exactly for stat failures. -/
theorem dateCat_buckets (fs : FS) (now : Nat) (f : FPath) :
    ((∃ t, statMtime fs f = some t ∧ now < t) → dateCat fs now f = "this_week") ∧
    (dateCat fs now f = "unknown" ↔ statMtime fs f = none) := by
  constructor
  · rintro ⟨t, ht, hlt⟩
    simp only [dateCat, ht]
    split_ifs with h1 h2
    · rfl
    · exfalso; omega
    · exfalso; omega
  · cases h : statMtime fs f with
    | none => simp [dateCat, h]
    | some t =>
      simp only [dateCat, h]
      constructor
      · intro hcat
        split_ifs at hcat <;> simp_all
      · intro hcon
        cases hcon

theorem dateCat_buckets_witness :
    statMtime fsW ⟨"s", "a.txt"⟩ = some 20 ∧ 5 < 20 ∧
    dateCat fsW 5 ⟨"s", "a.txt"⟩ = "this_week" ∧
    (dateCat fsW 5 ⟨"s", "a.txt"⟩ = "unknown" ↔ statMtime fsW ⟨"s", "a.txt"⟩ = none) :=
  ⟨by decide, by decide,
    (dateCat_buckets fsW 5 ⟨"s", "a.txt"⟩).1 ⟨20, by decide, by decide⟩,
    (dateCat_buckets fsW 5 ⟨"s", "a.txt"⟩).2⟩

/-! ### Trace bookkeeping of the organizer -/

theorem okCount_append (t1 t2 : List MoveRec) :
    okCount (t1 ++ t2) = okCount t1 + okCount t2 := by
  unfold okCount
  rw [List.filter_append, List.length_append]

theorem okSrcs_append (t1 t2 : List MoveRec) :
    okSrcs (t1 ++ t2) = okSrcs t1 ++ okSrcs t2 := by
  unfold okSrcs
  rw [List.filter_append, List.map_append]

theorem mem_okSrcs (tr : List MoveRec) (x : FPath) :
    x ∈ okSrcs tr ↔ ∃ r ∈ tr, r.ok = true ∧ r.src = x := by
  unfold okSrcs
  rw [List.mem_map]
  constructor
  · rintro ⟨r, hr, rfl⟩
    have h := List.mem_filter.1 hr
    exact ⟨r, h.1, h.2, rfl⟩
  · rintro ⟨r, hr, hok, rfl⟩
    exact ⟨r, List.mem_filter.2 ⟨hr, hok⟩, rfl⟩

theorem okSrcs12_append (t1 t2 : List MoveRec) :
    okSrcs12 (t1 ++ t2) = okSrcs12 t1 ++ okSrcs12 t2 := by
  unfold okSrcs12
  rw [List.filter_append, okSrcs_append]

theorem recordMove_fields (S : OrgState) (stage : Stage) (f : FPath)
    (d : String) (dry : Bool) (aS : Bool) :
    (recordMove S stage f d dry aS).moved =
      S.moved + (if (move_file S.fs f d dry).1 then 1 else 0) ∧
    (recordMove S stage f d dry aS).seen =
      (if (move_file S.fs f d dry).1 && aS then S.seen ++ [f] else S.seen) ∧
    (recordMove S stage f d dry aS).trace =
      S.trace ++ [⟨stage, f, (move_file S.fs f d dry).1⟩] :=
  ⟨rfl, rfl, rfl⟩

theorem recordMove_mcount (S : OrgState) (stage : Stage) (f : FPath)
    (d : String) (dry : Bool) (aS : Bool) (h : S.moved = okCount S.trace) :
    (recordMove S stage f d dry aS).moved =
      okCount (recordMove S stage f d dry aS).trace := by
  rw [(recordMove_fields S stage f d dry aS).1,
    (recordMove_fields S stage f d dry aS).2.2, okCount_append, h]
  cases hb : (move_file S.fs f d dry).1 <;> simp [okCount, hb]

theorem dupStep_mcount (out : String) (dry : Bool) (S : OrgState) (f : FPath)
    (h : S.moved = okCount S.trace) :
    (dupStep out dry S f).moved = okCount (dupStep out dry S f).trace :=
  recordMove_mcount S Stage.dups f (childDir out "_duplicates") dry true h

theorem typeStep_mcount (out : String) (dry : Bool) (S : OrgState) (f : FPath)
    (h : S.moved = okCount S.trace) :
    (typeStep out dry S f).moved = okCount (typeStep out dry S f).trace := by
  unfold typeStep
  by_cases hf : f ∈ S.seen
  · rw [if_pos hf]; exact h
  · rw [if_neg hf]
    exact recordMove_mcount S Stage.byType f _ dry true h

theorem dateStep_mcount (out : String) (dry : Bool) (now : Nat) (S : OrgState)
    (f : FPath) (h : S.moved = okCount S.trace) :
    (dateStep out dry now S f).moved = okCount (dateStep out dry now S f).trace := by
  unfold dateStep
  by_cases hf : f ∈ S.seen
  · rw [if_pos hf]; exact h
  · rw [if_neg hf]
    exact recordMove_mcount S Stage.byDate f _ dry false h

theorem foldl_pres {α : Type} (step : OrgState → α → OrgState)
    (P : OrgState → Prop) (hstep : ∀ S a, P S → P (step S a)) :
    ∀ (l : List α) (S : OrgState), P S → P (l.foldl step S) := by
  intro l
  induction l with
  | nil => intro S h; exact h
  | cons a t ih => intro S h; exact ih _ (hstep S a h)

theorem organize_mcount (cfg : Config) (dry : Bool) (fs0 : FS) :
    (organize cfg dry fs0).moved = okCount (organize cfg dry fs0).trace := by
  unfold organize stage3 stage2 stage1
  set P : OrgState → Prop := fun S => S.moved = okCount S.trace with hP
  have h0 : P ⟨fs0, 0, [], []⟩ := by simp [hP, okCount]
  have h1 : ∀ S, P S → P (if cfg.doDups then
      (find_duplicates S.fs cfg.files).foldl (dupStep cfg.out dry) S else S) := by
    intro S h
    by_cases hd : cfg.doDups
    · rw [if_pos hd]
      exact foldl_pres _ P (fun S f h => dupStep_mcount cfg.out dry S f h) _ S h
    · rw [if_neg hd]; exact h
  have h2 : ∀ S, P S → P (if cfg.doType then
      cfg.files.foldl (typeStep cfg.out dry) S else S) := by
    intro S h
    by_cases hd : cfg.doType
    · rw [if_pos hd]
      exact foldl_pres _ P (fun S f h => typeStep_mcount cfg.out dry S f h) _ S h
    · rw [if_neg hd]; exact h
  have h3 : ∀ S, P S → P (if cfg.doDate then
      cfg.files.foldl (dateStep cfg.out dry cfg.now) S else S) := by
    intro S h
    by_cases hd : cfg.doDate
    · rw [if_pos hd]
      exact foldl_pres _ P (fun S f h => dateStep_mcount cfg.out dry cfg.now S f h) _ S h
    · rw [if_neg hd]; exact h
  exact h3 _ (h2 _ (h1 _ h0))

theorem recordMove_seensync (S : OrgState) (stage : Stage) (f : FPath)
    (d : String) (dry : Bool) (hst : stage ≠ Stage.byDate)
    (h : S.seen = okSrcs12 S.trace) :
    (recordMove S stage f d dry true).seen =
      okSrcs12 (recordMove S stage f d dry true).trace := by
  rw [(recordMove_fields S stage f d dry true).2.1,
    (recordMove_fields S stage f d dry true).2.2, okSrcs12_append, h]
  cases hb : (move_file S.fs f d dry).1 <;>
    simp [okSrcs12, okSrcs, hb, hst]

theorem dateStep_seen_eq (out : String) (dry : Bool) (now : Nat)
    (S : OrgState) (f : FPath) : (dateStep out dry now S f).seen = S.seen := by
  unfold dateStep
  by_cases hf : f ∈ S.seen
  · rw [if_pos hf]
  · rw [if_neg hf]
    rw [(recordMove_fields S Stage.byDate f _ dry false).2.1]
    cases hb : (move_file S.fs f _ dry).1 <;> simp

theorem dateStep_seensync (out : String) (dry : Bool) (now : Nat)
    (S : OrgState) (f : FPath) (h : S.seen = okSrcs12 S.trace) :
    (dateStep out dry now S f).seen = okSrcs12 (dateStep out dry now S f).trace := by
  rw [dateStep_seen_eq, h]
  unfold dateStep
  by_cases hf : f ∈ S.seen
  · rw [if_pos hf]
  · rw [if_neg hf]
    rw [(recordMove_fields S Stage.byDate f _ dry false).2.2, okSrcs12_append]
    simp [okSrcs12, okSrcs]

theorem dupStep_seensync (out : String) (dry : Bool) (S : OrgState) (f : FPath)
    (h : S.seen = okSrcs12 S.trace) :
    (dupStep out dry S f).seen = okSrcs12 (dupStep out dry S f).trace :=
  recordMove_seensync S Stage.dups f _ dry (by intro hc; cases hc) h

theorem typeStep_seensync (out : String) (dry : Bool) (S : OrgState) (f : FPath)
    (h : S.seen = okSrcs12 S.trace) :
    (typeStep out dry S f).seen = okSrcs12 (typeStep out dry S f).trace := by
  unfold typeStep
  by_cases hf : f ∈ S.seen
  · rw [if_pos hf]; exact h
  · rw [if_neg hf]
    exact recordMove_seensync S Stage.byType f _ dry (by intro hc; cases hc) h

theorem organize_seensync (cfg : Config) (dry : Bool) (fs0 : FS) :
    (organize cfg dry fs0).seen = okSrcs12 (organize cfg dry fs0).trace := by
  unfold organize stage3 stage2 stage1
  set P : OrgState → Prop := fun S => S.seen = okSrcs12 S.trace with hP
  have h0 : P ⟨fs0, 0, [], []⟩ := by simp [hP, okSrcs12, okSrcs]
  have h1 : ∀ S, P S → P (if cfg.doDups then
      (find_duplicates S.fs cfg.files).foldl (dupStep cfg.out dry) S else S) := by
    intro S h
    by_cases hd : cfg.doDups
    · rw [if_pos hd]
      exact foldl_pres _ P (fun S f h => dupStep_seensync cfg.out dry S f h) _ S h
    · rw [if_neg hd]; exact h
  have h2 : ∀ S, P S → P (if cfg.doType then
      cfg.files.foldl (typeStep cfg.out dry) S else S) := by
    intro S h
    by_cases hd : cfg.doType
    · rw [if_pos hd]
      exact foldl_pres _ P (fun S f h => typeStep_seensync cfg.out dry S f h) _ S h
    · rw [if_neg hd]; exact h
  have h3 : ∀ S, P S → P (if cfg.doDate then
      cfg.files.foldl (dateStep cfg.out dry cfg.now) S else S) := by
    intro S h
    by_cases hd : cfg.doDate
    · rw [if_pos hd]
      exact foldl_pres _ P (fun S f h => dateStep_seensync cfg.out dry cfg.now S f h) _ S h
    · rw [if_neg hd]; exact h
  exact h3 _ (h2 _ (h1 _ h0))

theorem recordMove_nodate (S : OrgState) (stage : Stage) (f : FPath)
    (d : String) (dry : Bool) (aS : Bool) (hst : stage ≠ Stage.byDate)
    (h : ∀ r ∈ S.trace, r.stage ≠ Stage.byDate) :
    ∀ r ∈ (recordMove S stage f d dry aS).trace, r.stage ≠ Stage.byDate := by
  rw [(recordMove_fields S stage f d dry aS).2.2]
  intro r hr
  rcases List.mem_append.1 hr with hr | hr
  · exact h r hr
  · rcases List.mem_singleton.1 hr with rfl
    exact hst

theorem stage12_nodate (cfg : Config) (dry : Bool) (fs0 : FS) :
    ∀ r ∈ (stage2 cfg dry (stage1 cfg dry ⟨fs0, 0, [], []⟩)).trace,
      r.stage ≠ Stage.byDate := by
  unfold stage2 stage1
  set P : OrgState → Prop := fun S => ∀ r ∈ S.trace, r.stage ≠ Stage.byDate with hP
  have h0 : P ⟨fs0, 0, [], []⟩ := by intro r hr; cases hr
  have h1 : ∀ S, P S → P (if cfg.doDups then
      (find_duplicates S.fs cfg.files).foldl (dupStep cfg.out dry) S else S) := by
    intro S h
    by_cases hd : cfg.doDups
    · rw [if_pos hd]
      refine foldl_pres _ P (fun S f h => ?_) _ S h
      exact recordMove_nodate S Stage.dups f _ dry true (by intro hc; cases hc) h
    · rw [if_neg hd]; exact h
  have h2 : ∀ S, P S → P (if cfg.doType then
      cfg.files.foldl (typeStep cfg.out dry) S else S) := by
    intro S h
    by_cases hd : cfg.doType
    · rw [if_pos hd]
      refine foldl_pres _ P (fun S f h => ?_) _ S h
      unfold typeStep
      by_cases hf : f ∈ S.seen
      · rw [if_pos hf]; exact h
      · rw [if_neg hf]
        exact recordMove_nodate S Stage.byType f _ dry true (by intro hc; cases hc) h
    · rw [if_neg hd]; exact h
  exact h2 _ (h1 _ h0)

theorem foldl_dateStep_seen (out : String) (dry : Bool) (now : Nat) :
    ∀ (l : List FPath) (S : OrgState),
    (l.foldl (dateStep out dry now) S).seen = S.seen := by
  intro l
  induction l with
  | nil => intro S; rfl
  | cons a t ih =>
    intro S
    simp only [List.foldl_cons]
    rw [ih, dateStep_seen_eq]

theorem foldl_dateStep_datefresh (out : String) (dry : Bool) (now : Nat) :
    ∀ (l : List FPath) (S : OrgState),
    (∀ r ∈ S.trace, r.stage = Stage.byDate → r.ok = true → r.src ∉ S.seen) →
    ∀ r ∈ (l.foldl (dateStep out dry now) S).trace, r.stage = Stage.byDate →
      r.ok = true → r.src ∉ (l.foldl (dateStep out dry now) S).seen := by
  intro l
  induction l with
  | nil => intro S h; exact h
  | cons a t ih =>
    intro S h
    simp only [List.foldl_cons]
    refine ih _ ?_
    intro r hr hstage hok
    rw [dateStep_seen_eq]
    unfold dateStep at hr
    by_cases hf : a ∈ S.seen
    · rw [if_pos hf] at hr
      exact h r hr hstage hok
    · rw [if_neg hf] at hr
      rw [(recordMove_fields S Stage.byDate a _ dry false).2.2] at hr
      rcases List.mem_append.1 hr with hr | hr
      · exact h r hr hstage hok
      · rcases List.mem_singleton.1 hr with rfl
        exact hf

/-- C10: the by-date stage never records its moves in the `seen` set:
after a full run `seen` holds exactly the sources of the successful
duplicates/by-type Relocator calls, successful by-date sources are not in
it, and the reported total still counts every successful call. -/
theorem organize_seen_contents (cfg : Config) (dry : Bool) (fs0 : FS) :
    (organize cfg dry fs0).seen = okSrcs12 (organize cfg dry fs0).trace ∧
    (∀ r ∈ (organize cfg dry fs0).trace, r.stage = Stage.byDate → r.ok = true →
      r.src ∉ (organize cfg dry fs0).seen) ∧
    (organize cfg dry fs0).moved = okCount (organize cfg dry fs0).trace := by
  refine ⟨organize_seensync cfg dry fs0, ?_, organize_mcount cfg dry fs0⟩
  have hnodate := stage12_nodate cfg dry fs0
  show ∀ r ∈ (organize cfg dry fs0).trace, r.stage = Stage.byDate → r.ok = true →
      r.src ∉ (organize cfg dry fs0).seen
  unfold organize stage3
  set S2 := stage2 cfg dry (stage1 cfg dry ⟨fs0, 0, [], []⟩) with hS2
  have hfresh : ∀ r ∈ S2.trace, r.stage = Stage.byDate → r.ok = true →
      r.src ∉ S2.seen := by
    intro r hr hstage _
    exact absurd hstage (hnodate r hr)
  by_cases hd : cfg.doDate
  · rw [if_pos hd]
    exact foldl_dateStep_datefresh cfg.out dry cfg.now cfg.files S2 hfresh
  · rw [if_neg hd]
    exact hfresh

theorem okSrcs12_eq_okSrcs (tr : List MoveRec)
    (h : ∀ r ∈ tr, r.stage ≠ Stage.byDate) : okSrcs12 tr = okSrcs tr := by
  unfold okSrcs12
  congr 1
  apply List.filter_eq_self.2
  intro r hr
  simpa using h r hr

theorem nodup_append_singleton {l : List FPath} {f : FPath}
    (h : l.Nodup) (hf : f ∉ l) : (l ++ [f]).Nodup :=
  List.Nodup.append h (List.nodup_singleton f)
    (by intro a ha hb; rcases List.mem_singleton.1 hb with rfl; exact hf ha)

theorem dup_fold_okNodup (out : String) (dry : Bool) :
    ∀ (l : List FPath) (S : OrgState), l.Nodup → (∀ f ∈ l, f ∉ S.seen) →
    S.seen = okSrcs12 S.trace → (∀ r ∈ S.trace, r.stage ≠ Stage.byDate) →
    (okSrcs S.trace).Nodup →
    (okSrcs (l.foldl (dupStep out dry) S).trace).Nodup := by
  intro l
  induction l with
  | nil => intro S _ _ _ _ h5; exact h5
  | cons f t ih =>
    intro S h1 h2 h3 h4 h5
    simp only [List.foldl_cons]
    have hb := (recordMove_fields S Stage.dups f (childDir out "_duplicates") dry true)
    have hfS : f ∉ S.seen := h2 f (by simp)
    have hfok : f ∉ okSrcs S.trace := by
      rw [← okSrcs12_eq_okSrcs S.trace h4, ← h3]
      exact hfS
    have htrace : (dupStep out dry S f).trace =
        S.trace ++ [⟨Stage.dups, f, (move_file S.fs f (childDir out "_duplicates") dry).1⟩] :=
      hb.2.2
    have hnodup' : (okSrcs (dupStep out dry S f).trace).Nodup := by
      rw [htrace, okSrcs_append]
      cases hbm : (move_file S.fs f (childDir out "_duplicates") dry).1
      · simpa [okSrcs, hbm] using h5
      · have : okSrcs [⟨Stage.dups, f, true⟩] = [f] := by simp [okSrcs]
        rw [this]
        exact nodup_append_singleton h5 hfok
    refine ih _ (List.nodup_cons.1 h1).2 ?_
      (dupStep_seensync out dry S f h3)
      (recordMove_nodate S Stage.dups f _ dry true (by intro hc; cases hc) h4)
      hnodup'
    intro g hg
    show g ∉ (recordMove S Stage.dups f (childDir out "_duplicates") dry true).seen
    rw [hb.2.1]
    cases hbm : (move_file S.fs f (childDir out "_duplicates") dry).1
    · rw [if_neg (by decide)]
      exact h2 g (by simp [hg])
    · rw [if_pos (by decide)]
      intro hmem
      rcases List.mem_append.1 hmem with hmem | hmem
      · exact h2 g (by simp [hg]) hmem
      · rcases List.mem_singleton.1 hmem with rfl
        exact (List.nodup_cons.1 h1).1 hg

theorem type_fold_okNodup (out : String) (dry : Bool) :
    ∀ (l : List FPath) (S : OrgState),
    S.seen = okSrcs12 S.trace → (∀ r ∈ S.trace, r.stage ≠ Stage.byDate) →
    (okSrcs S.trace).Nodup →
    (okSrcs (l.foldl (typeStep out dry) S).trace).Nodup := by
  intro l
  induction l with
  | nil => intro S _ _ h3; exact h3
  | cons f t ih =>
    intro S h1 h2 h3
    simp only [List.foldl_cons]
    refine ih _ (typeStep_seensync out dry S f h1) ?_ ?_
    · unfold typeStep
      by_cases hf : f ∈ S.seen
      · rw [if_pos hf]; exact h2
      · rw [if_neg hf]
        exact recordMove_nodate S Stage.byType f _ dry true (by intro hc; cases hc) h2
    · unfold typeStep
      by_cases hf : f ∈ S.seen
      · rw [if_pos hf]; exact h3
      · rw [if_neg hf]
        have hb := recordMove_fields S Stage.byType f (childDir out (typeCat f)) dry true
        rw [hb.2.2, okSrcs_append]
        cases hbm : (move_file S.fs f (childDir out (typeCat f)) dry).1
        · simpa [okSrcs, hbm] using h3
        · have hsingle : okSrcs [⟨Stage.byType, f, true⟩] = [f] := by simp [okSrcs]
          rw [hsingle]
          refine nodup_append_singleton h3 ?_
          rw [← okSrcs12_eq_okSrcs S.trace h2, ← h1]
          exact hf

theorem date_fold_okNodup (out : String) (dry : Bool) (now : Nat) :
    ∀ (l : List FPath) (S : OrgState), l.Nodup →
    S.seen = okSrcs12 S.trace →
    (∀ f ∈ l, f ∉ okSrcs (S.trace.filter (fun r => decide (r.stage = Stage.byDate)))) →
    (okSrcs S.trace).Nodup →
    (okSrcs (l.foldl (dateStep out dry now) S).trace).Nodup := by
  intro l
  induction l with
  | nil => intro S _ _ _ h4; exact h4
  | cons f t ih =>
    intro S h1 h2 h3 h4
    simp only [List.foldl_cons]
    by_cases hf : f ∈ S.seen
    · have hstep : dateStep out dry now S f = S := by
        unfold dateStep
        rw [if_pos hf]
      rw [hstep]
      exact ih _ (List.nodup_cons.1 h1).2 h2 (fun g hg => h3 g (by simp [hg])) h4
    · have hstep : dateStep out dry now S f =
          recordMove S Stage.byDate f (childDir out (dateCat S.fs now f)) dry false := by
        unfold dateStep
        rw [if_neg hf]
      rw [hstep]
      have hb := recordMove_fields S Stage.byDate f (childDir out (dateCat S.fs now f)) dry false
      have hfok : f ∉ okSrcs S.trace := by
        intro hmem
        rcases (mem_okSrcs S.trace f).1 hmem with ⟨r, hr, hok, hsrc⟩
        by_cases hrs : r.stage = Stage.byDate
        · refine h3 f (by simp) ?_
          exact (mem_okSrcs _ f).2 ⟨r, List.mem_filter.2 ⟨hr, by simp [hrs]⟩, hok, hsrc⟩
        · refine hf ?_
          rw [h2]
          exact (mem_okSrcs _ f).2
            ⟨r, List.mem_filter.2 ⟨hr, by simp [hrs]⟩, hok, hsrc⟩
      refine ih _ (List.nodup_cons.1 h1).2 ?_ ?_ ?_
      · rw [hb.2.1, hb.2.2, okSrcs12_append, h2]
        cases hbm : (move_file S.fs f (childDir out (dateCat S.fs now f)) dry).1 <;>
          simp [okSrcs12, okSrcs, hbm]
      · intro g hg
        rw [hb.2.2, List.filter_append, okSrcs_append]
        intro hmem
        rcases List.mem_append.1 hmem with hmem | hmem
        · exact h3 g (by simp [hg]) hmem
        · have : g = f := by
            rcases (mem_okSrcs _ g).1 hmem with ⟨r, hr, -, hsrc⟩
            have := List.mem_of_mem_filter hr
            rcases List.mem_singleton.1 this with rfl
            exact hsrc.symm
          exact (List.nodup_cons.1 h1).1 (this ▸ hg)
      · rw [hb.2.2, okSrcs_append]
        cases hbm : (move_file S.fs f (childDir out (dateCat S.fs now f)) dry).1
        · simpa [okSrcs, hbm] using h4
        · have hsingle : okSrcs [⟨Stage.byDate, f, true⟩] = [f] := by simp [okSrcs]
          rw [hsingle]
          exact nodup_append_singleton h4 hfok

/-- C5: the reported total equals the number of successful Relocator
calls, and no file is the source of two successful calls (each file is
claimed by at most one stage, enforced by the `seen` set). -/
theorem organize_moved_count (cfg : Config) (dry : Bool) (fs0 : FS)
    (hnd : cfg.files.Nodup) :
    (organize cfg dry fs0).moved = okCount (organize cfg dry fs0).trace ∧
    (okSrcs (organize cfg dry fs0).trace).Nodup := by
  refine ⟨organize_mcount cfg dry fs0, ?_⟩
  have hnodate2 := stage12_nodate cfg dry fs0
  set S0 : OrgState := ⟨fs0, 0, [], []⟩ with hS0
  have hsync0 : S0.seen = okSrcs12 S0.trace := by simp [hS0, okSrcs12, okSrcs]
  have hnodate0 : ∀ r ∈ S0.trace, r.stage ≠ Stage.byDate := by
    intro r hr; cases hr
  have hok0 : (okSrcs S0.trace).Nodup := by simp [hS0, okSrcs]
  set S1 := stage1 cfg dry S0 with hS1
  have hsync1 : S1.seen = okSrcs12 S1.trace := by
    rw [hS1]
    unfold stage1
    by_cases hd : cfg.doDups
    · rw [if_pos hd]
      exact foldl_pres _ (fun S => S.seen = okSrcs12 S.trace)
        (fun S f h => dupStep_seensync cfg.out dry S f h) _ S0 hsync0
    · rw [if_neg hd]; exact hsync0
  have hnodate1 : ∀ r ∈ S1.trace, r.stage ≠ Stage.byDate := by
    rw [hS1]
    unfold stage1
    by_cases hd : cfg.doDups
    · rw [if_pos hd]
      refine foldl_pres _ (fun S => ∀ r ∈ S.trace, r.stage ≠ Stage.byDate)
        (fun S f h => ?_) _ S0 hnodate0
      exact recordMove_nodate S Stage.dups f _ dry true (by intro hc; cases hc) h
    · rw [if_neg hd]; exact hnodate0
  have hok1 : (okSrcs S1.trace).Nodup := by
    rw [hS1]
    unfold stage1
    by_cases hd : cfg.doDups
    · rw [if_pos hd]
      refine dup_fold_okNodup cfg.out dry _ S0 ?_ ?_ hsync0 hnodate0 hok0
      · exact find_duplicates_nodup S0.fs cfg.files hnd
      · intro f hf
        simp [hS0]
    · rw [if_neg hd]; exact hok0
  set S2 := stage2 cfg dry S1 with hS2
  have hsync2 : S2.seen = okSrcs12 S2.trace := by
    rw [hS2]
    unfold stage2
    by_cases hd : cfg.doType
    · rw [if_pos hd]
      exact foldl_pres _ (fun S => S.seen = okSrcs12 S.trace)
        (fun S f h => typeStep_seensync cfg.out dry S f h) _ S1 hsync1
    · rw [if_neg hd]; exact hsync1
  have hok2 : (okSrcs S2.trace).Nodup := by
    rw [hS2]
    unfold stage2
    by_cases hd : cfg.doType
    · rw [if_pos hd]
      exact type_fold_okNodup cfg.out dry _ S1 hsync1 hnodate1 hok1
    · rw [if_neg hd]; exact hok1
  have hnodate2' : ∀ r ∈ S2.trace, r.stage ≠ Stage.byDate := hnodate2
  show (okSrcs (stage3 cfg dry S2).trace).Nodup
  unfold stage3
  by_cases hd : cfg.doDate
  · rw [if_pos hd]
    refine date_fold_okNodup cfg.out dry cfg.now _ S2 hnd hsync2 ?_ hok2
    intro f hf
    have hfilter : S2.trace.filter (fun r => decide (r.stage = Stage.byDate)) = [] := by
      rw [List.filter_eq_nil_iff]
      intro r hr
      simpa using hnodate2' r hr
    rw [hfilter]
    simp [okSrcs]
  · rw [if_neg hd]; exact hok2

theorem organize_seen_contents_witness :
    (organize cfgW false fsW).seen = okSrcs12 (organize cfgW false fsW).trace ∧
    (∀ r ∈ (organize cfgW false fsW).trace, r.stage = Stage.byDate → r.ok = true →
      r.src ∉ (organize cfgW false fsW).seen) ∧
    (organize cfgW false fsW).moved = okCount (organize cfgW false fsW).trace :=
  organize_seen_contents cfgW false fsW

theorem organize_moved_count_witness :
    cfgW.files.Nodup ∧
    ((organize cfgW false fsW).moved = okCount (organize cfgW false fsW).trace ∧
      (okSrcs (organize cfgW false fsW).trace).Nodup) :=
  ⟨by decide, organize_moved_count cfgW false fsW (by decide)⟩

/-! ### Dry-run immutability and the dry/real lockstep -/

theorem move_file_dry_fs (fs : FS) (src : FPath) (d : String) :
    (move_file fs src d true).2 = fs := by
  unfold move_file
  cases h1 : fs.ex src
  · simp
  · simp only [Bool.not_true, Bool.false_eq_true, if_false]
    by_cases h2 : fs.ex (⟨d, src.base⟩ : FPath) = true ∧
        fs.resolve ⟨d, src.base⟩ = fs.resolve src
    · rw [if_pos h2]
    · rw [if_neg h2]
      simp

theorem organize_dry_fs (cfg : Config) (fs0 : FS) :
    (organize cfg true fs0).fs = fs0 := by
  unfold organize stage3 stage2 stage1
  set P : OrgState → Prop := fun S => S.fs = fs0 with hP
  have hrec : ∀ S stage f d aS, P S → P (recordMove S stage f d true aS) := by
    intro S stage f d aS h
    show (move_file S.fs f d true).2 = fs0
    rw [move_file_dry_fs, h]
  have h0 : P ⟨fs0, 0, [], []⟩ := rfl
  have h1 : ∀ S, P S → P (if cfg.doDups then
      (find_duplicates S.fs cfg.files).foldl (dupStep cfg.out true) S else S) := by
    intro S h
    by_cases hd : cfg.doDups
    · rw [if_pos hd]
      exact foldl_pres _ P (fun S f h => hrec S Stage.dups f _ true h) _ S h
    · rw [if_neg hd]; exact h
  have h2 : ∀ S, P S → P (if cfg.doType then
      cfg.files.foldl (typeStep cfg.out true) S else S) := by
    intro S h
    by_cases hd : cfg.doType
    · rw [if_pos hd]
      refine foldl_pres _ P (fun S f h => ?_) _ S h
      unfold typeStep
      by_cases hf : f ∈ S.seen
      · rw [if_pos hf]; exact h
      · rw [if_neg hf]; exact hrec S Stage.byType f _ true h
    · rw [if_neg hd]; exact h
  have h3 : ∀ S, P S → P (if cfg.doDate then
      cfg.files.foldl (dateStep cfg.out true cfg.now) S else S) := by
    intro S h
    by_cases hd : cfg.doDate
    · rw [if_pos hd]
      refine foldl_pres _ P (fun S f h => ?_) _ S h
      unfold dateStep
      by_cases hf : f ∈ S.seen
      · rw [if_pos hf]; exact h
      · rw [if_neg hf]; exact hrec S Stage.byDate f _ false h
    · rw [if_neg hd]; exact h
  exact h3 _ (h2 _ (h1 _ h0))

theorem resolve_congr (fs1 fs2 : FS) (h : fs1.aliases = fs2.aliases) (p : FPath) :
    fs1.resolve p = fs2.resolve p := by
  unfold FS.resolve
  rw [h]

theorem move_file_true_of_dry (fs : FS) (src : FPath) (d : String)
    (hsrc : fs.ex src = true)
    (hns : ¬(fs.ex (⟨d, src.base⟩ : FPath) = true ∧
      fs.resolve ⟨d, src.base⟩ = fs.resolve src)) :
    move_file fs src d true = (true, fs) := by
  unfold move_file
  rw [hsrc]
  simp only [Bool.not_true, Bool.false_eq_true, if_false]
  rw [if_neg hns]
  simp

theorem move_file_real_eq (fs : FS) (src : FPath) (d : String)
    (hsrc : fs.ex src = true)
    (hns : ¬(fs.ex (⟨d, src.base⟩ : FPath) = true ∧
      fs.resolve ⟨d, src.base⟩ = fs.resolve src)) :
    ∃ dest : FPath, fs.ex dest = false ∧
      move_file fs src d false =
        (if fs.moveOk src dest then (true, (fs.mkdir d).domove src dest)
         else (false, fs.mkdir d)) := by
  by_cases hd0 : fs.ex (⟨d, src.base⟩ : FPath) = true
  · have hne : fs.resolve ⟨d, src.base⟩ ≠ fs.resolve src := fun hc => hns ⟨hd0, hc⟩
    rcases conflictDest_free fs d src with ⟨m, -, heq, hfree, -⟩
    refine ⟨cand d src m, hfree, ?_⟩
    unfold move_file
    rw [hsrc]
    simp only [Bool.not_true, Bool.false_eq_true, if_false]
    rw [if_neg hns, if_pos hd0, heq]
  · have hd0f : fs.ex (⟨d, src.base⟩ : FPath) = false := by
      revert hd0
      cases fs.ex (⟨d, src.base⟩ : FPath) <;> simp
    refine ⟨⟨d, src.base⟩, hd0f, ?_⟩
    unfold move_file
    rw [hsrc]
    simp only [Bool.not_true, Bool.false_eq_true, if_false]
    rw [if_neg hns, if_neg hd0]

theorem map_nodup_ne {r : FPath → FPath} :
    ∀ {files : List FPath}, (files.map r).Nodup →
    ∀ {g f : FPath}, g ∈ files → f ∈ files → g ≠ f → r g ≠ r f := by
  intro files
  induction files with
  | nil => intro _ g f hg; cases hg
  | cons a t ih =>
    intro hnd g f hg hf hne
    simp only [List.map_cons, List.nodup_cons] at hnd
    rcases List.mem_cons.1 hg with rfl | hg' <;> rcases List.mem_cons.1 hf with rfl | hf'
    · exact absurd rfl hne
    · intro hc
      exact hnd.1 (hc ▸ List.mem_map.2 ⟨f, hf', rfl⟩)
    · intro hc
      exact hnd.1 (hc.symm ▸ List.mem_map.2 ⟨g, hg', rfl⟩)
    · exact ih hnd.2 hg' hf' hne

theorem move_file_lockstep (fs0 fsR : FS) (f : FPath) (d : String)
    (hal : fsR.aliases = fs0.aliases) (hmk : fsR.moveOk = fs0.moveOk)
    (hok : ∀ a b, fs0.moveOk a b = true)
    (h0 : fs0.ex f = true)
    (hR : fs0.resolve f ∈ fsR.inodes) :
    (move_file fs0 f d true).1 = (move_file fsR f d false).1 ∧
    (move_file fsR f d false).2.aliases = fs0.aliases ∧
    (move_file fsR f d false).2.moveOk = fs0.moveOk ∧
    (∀ c ∈ fsR.inodes, c ≠ fs0.resolve f →
      c ∈ (move_file fsR f d false).2.inodes ∧
      (move_file fsR f d false).2.mtimeI c = fsR.mtimeI c) := by
  have hres : ∀ p, fsR.resolve p = fs0.resolve p := resolve_congr fsR fs0 hal
  have hexR : fsR.ex f = true := by
    unfold FS.ex
    rw [hres]
    exact decide_eq_true hR
  by_cases hsame : fs0.resolve (⟨d, f.base⟩ : FPath) = fs0.resolve f
  · have hd00 : fs0.ex (⟨d, f.base⟩ : FPath) = true := by
      unfold FS.ex
      rw [hsame]
      exact decide_eq_true ((ex_iff fs0 f).1 h0)
    have hd0R : fsR.ex (⟨d, f.base⟩ : FPath) = true := by
      unfold FS.ex
      rw [hres, hsame]
      exact decide_eq_true hR
    have e1 : move_file fs0 f d true = (false, fs0) :=
      move_file_skips fs0 f d true (Or.inr ⟨hd00, hsame⟩)
    have e2 : move_file fsR f d false = (false, fsR) :=
      move_file_skips fsR f d false (Or.inr ⟨hd0R, by rw [hres, hres]; exact hsame⟩)
    rw [e1, e2]
    exact ⟨rfl, hal, hmk, fun c hc _ => ⟨hc, rfl⟩⟩
  · have hns0 : ¬(fs0.ex (⟨d, f.base⟩ : FPath) = true ∧
        fs0.resolve ⟨d, f.base⟩ = fs0.resolve f) := fun hc => hsame hc.2
    have hnsR : ¬(fsR.ex (⟨d, f.base⟩ : FPath) = true ∧
        fsR.resolve ⟨d, f.base⟩ = fsR.resolve f) := by
      rintro ⟨-, hc⟩
      rw [hres, hres] at hc
      exact hsame hc
    have e1 : move_file fs0 f d true = (true, fs0) :=
      move_file_true_of_dry fs0 f d h0 hns0
    rcases move_file_real_eq fsR f d hexR hnsR with ⟨dest, hfree, he2⟩
    have hmkok : fsR.moveOk f dest = true := by rw [hmk]; exact hok f dest
    rw [if_pos hmkok] at he2
    have hcd : fsR.resolve dest ∉ fsR.inodes := by
      intro hc
      have : fsR.ex dest = true := by
        unfold FS.ex
        exact decide_eq_true hc
      rw [this] at hfree
      cases hfree
    rw [e1, he2]
    refine ⟨rfl, hal, hmk, ?_⟩
    intro c hc hne
    constructor
    · show c ∈ fsR.inodes.erase (fsR.resolve f) ++ [fsR.resolve dest]
      refine List.mem_append_left _ ?_
      refine (List.mem_erase_of_ne ?_).2 hc
      rw [hres]
      exact hne
    · show updAttr fsR.mtimeI (fsR.resolve f) (fsR.resolve dest) c = fsR.mtimeI c
      unfold updAttr
      rw [if_neg]
      intro hcc
      exact hcd (hcc ▸ hc)

theorem move_file_real_false (fs : FS) (f : FPath) (d : String)
    (hok : ∀ a b, fs.moveOk a b = true)
    (hfalse : (move_file fs f d false).1 = false) :
    (move_file fs f d false).2 = fs := by
  by_cases hsrc : fs.ex f = true
  · by_cases hns : fs.ex (⟨d, f.base⟩ : FPath) = true ∧
        fs.resolve ⟨d, f.base⟩ = fs.resolve f
    · rw [move_file_skips fs f d false (Or.inr hns)]
    · rcases move_file_real_eq fs f d hsrc hns with ⟨dest, -, he⟩
      rw [if_pos (hok f dest)] at he
      rw [he] at hfalse
      cases hfalse
  · have : fs.ex f = false := by
      revert hsrc
      cases fs.ex f <;> simp
    rw [move_file_skips fs f d false (Or.inl this)]

theorem dupStep_fields (out : String) (dry : Bool) (S : OrgState) (f : FPath) :
    (dupStep out dry S f).fs = (move_file S.fs f (childDir out "_duplicates") dry).2 ∧
    (dupStep out dry S f).moved = S.moved +
      (if (move_file S.fs f (childDir out "_duplicates") dry).1 then 1 else 0) ∧
    (dupStep out dry S f).seen =
      (if (move_file S.fs f (childDir out "_duplicates") dry).1 && true
       then S.seen ++ [f] else S.seen) :=
  ⟨rfl, rfl, rfl⟩

theorem dup_fold_lockstep (out : String) (fs0 : FS) (files : List FPath)
    (hok : ∀ a b, fs0.moveOk a b = true)
    (hex : ∀ f ∈ files, fs0.ex f = true)
    (hlinks : (files.map fs0.resolve).Nodup) :
    ∀ (l : List FPath) (Sd Sr : OrgState),
    l.Nodup → (∀ f ∈ l, f ∈ files) → (∀ f ∈ l, f ∉ Sr.seen) →
    Sd.fs = fs0 → Sd.moved = Sr.moved → Sd.seen = Sr.seen →
    Sr.fs.aliases = fs0.aliases → Sr.fs.moveOk = fs0.moveOk →
    (∀ f ∈ files, f ∉ Sr.seen →
      fs0.resolve f ∈ Sr.fs.inodes ∧
      Sr.fs.mtimeI (fs0.resolve f) = fs0.mtimeI (fs0.resolve f)) →
    ((l.foldl (dupStep out true) Sd).fs = fs0 ∧
     (l.foldl (dupStep out true) Sd).moved = (l.foldl (dupStep out false) Sr).moved ∧
     (l.foldl (dupStep out true) Sd).seen = (l.foldl (dupStep out false) Sr).seen ∧
     (l.foldl (dupStep out false) Sr).fs.aliases = fs0.aliases ∧
     (l.foldl (dupStep out false) Sr).fs.moveOk = fs0.moveOk ∧
     (∀ f ∈ files, f ∉ (l.foldl (dupStep out false) Sr).seen →
       fs0.resolve f ∈ (l.foldl (dupStep out false) Sr).fs.inodes ∧
       (l.foldl (dupStep out false) Sr).fs.mtimeI (fs0.resolve f) =
         fs0.mtimeI (fs0.resolve f))) := by
  intro l
  induction l with
  | nil =>
    intro Sd Sr _ _ _ h4 h5 h6 h7 h8 h9
    exact ⟨h4, h5, h6, h7, h8, h9⟩
  | cons f t ih =>
    intro Sd Sr h1 h2 h3 h4 h5 h6 h7 h8 h9
    simp only [List.foldl_cons]
    have hfF : f ∈ files := h2 f (by simp)
    have hfseen : f ∉ Sr.seen := h3 f (by simp)
    have hlive := h9 f hfF hfseen
    have hlock := move_file_lockstep fs0 Sr.fs f (childDir out "_duplicates")
      h7 h8 hok (hex f hfF) hlive.1
    have hfd := dupStep_fields out true Sd f
    have hfr := dupStep_fields out false Sr f
    have hdryb : (move_file Sd.fs f (childDir out "_duplicates") true).1 =
        (move_file Sr.fs f (childDir out "_duplicates") false).1 := by
      rw [h4]
      exact hlock.1
    have hfs' : (dupStep out true Sd f).fs = fs0 := by
      rw [hfd.1, move_file_dry_fs, h4]
    have hmoved' : (dupStep out true Sd f).moved = (dupStep out false Sr f).moved := by
      rw [hfd.2.1, hfr.2.1, h5, hdryb]
    have hseen' : (dupStep out true Sd f).seen = (dupStep out false Sr f).seen := by
      rw [hfd.2.2, hfr.2.2, h6, hdryb]
    have hokR : ∀ a b, Sr.fs.moveOk a b = true := by
      intro a b
      rw [h8]
      exact hok a b
    refine ih (dupStep out true Sd f) (dupStep out false Sr f)
      (List.nodup_cons.1 h1).2 (fun g hg => h2 g (by simp [hg])) ?_
      hfs' hmoved' hseen' ?_ ?_ ?_
    · -- remaining files not in the new seen set
      intro g hg
      rw [hfr.2.2]
      cases hb : (move_file Sr.fs f (childDir out "_duplicates") false).1
      · rw [if_neg (by simp)]
        exact h3 g (by simp [hg])
      · rw [if_pos (by simp)]
        intro hmem
        rcases List.mem_append.1 hmem with hmem | hmem
        · exact h3 g (by simp [hg]) hmem
        · rcases List.mem_singleton.1 hmem with rfl
          exact (List.nodup_cons.1 h1).1 hg
    · rw [hfr.1]; exact hlock.2.1
    · rw [hfr.1]; exact hlock.2.2.1
    · -- live files preserved
      intro g hgF hgseen
      rw [hfr.1]
      cases hb : (move_file Sr.fs f (childDir out "_duplicates") false).1
      · have hsame : (move_file Sr.fs f (childDir out "_duplicates") false).2 = Sr.fs :=
          move_file_real_false Sr.fs f _ hokR hb
        rw [hsame]
        refine h9 g hgF ?_
        have := hgseen
        rw [hfr.2.2, hb] at this
        simpa using this
      · have hgold : g ∉ Sr.seen ∧ g ≠ f := by
          rw [hfr.2.2, hb, if_pos (by simp)] at hgseen
          constructor
          · intro hc; exact hgseen (List.mem_append_left _ hc)
          · intro hc; exact hgseen (List.mem_append_right _ (by simp [hc]))
        have hliveg := h9 g hgF hgold.1
        have hne : fs0.resolve g ≠ fs0.resolve f :=
          map_nodup_ne hlinks hgF hfF hgold.2
        have hpres := hlock.2.2.2 (fs0.resolve g) hliveg.1 hne
        exact ⟨hpres.1, by rw [hpres.2]; exact hliveg.2⟩

theorem type_fold_lockstep (out : String) (fs0 : FS) (files : List FPath)
    (hok : ∀ a b, fs0.moveOk a b = true)
    (hex : ∀ f ∈ files, fs0.ex f = true)
    (hlinks : (files.map fs0.resolve).Nodup) :
    ∀ (l : List FPath) (Sd Sr : OrgState),
    (∀ f ∈ l, f ∈ files) →
    Sd.fs = fs0 → Sd.moved = Sr.moved → Sd.seen = Sr.seen →
    Sr.fs.aliases = fs0.aliases → Sr.fs.moveOk = fs0.moveOk →
    (∀ f ∈ files, f ∉ Sr.seen →
      fs0.resolve f ∈ Sr.fs.inodes ∧
      Sr.fs.mtimeI (fs0.resolve f) = fs0.mtimeI (fs0.resolve f)) →
    ((l.foldl (typeStep out true) Sd).fs = fs0 ∧
     (l.foldl (typeStep out true) Sd).moved = (l.foldl (typeStep out false) Sr).moved ∧
     (l.foldl (typeStep out true) Sd).seen = (l.foldl (typeStep out false) Sr).seen ∧
     (l.foldl (typeStep out false) Sr).fs.aliases = fs0.aliases ∧
     (l.foldl (typeStep out false) Sr).fs.moveOk = fs0.moveOk ∧
     (∀ f ∈ files, f ∉ (l.foldl (typeStep out false) Sr).seen →
       fs0.resolve f ∈ (l.foldl (typeStep out false) Sr).fs.inodes ∧
       (l.foldl (typeStep out false) Sr).fs.mtimeI (fs0.resolve f) =
         fs0.mtimeI (fs0.resolve f))) := by
  intro l
  induction l with
  | nil =>
    intro Sd Sr _ h4 h5 h6 h7 h8 h9
    exact ⟨h4, h5, h6, h7, h8, h9⟩
  | cons f t ih =>
    intro Sd Sr h2 h4 h5 h6 h7 h8 h9
    simp only [List.foldl_cons]
    have hfF : f ∈ files := h2 f (by simp)
    by_cases hf : f ∈ Sr.seen
    · have hstepd : typeStep out true Sd f = Sd := by
        unfold typeStep
        rw [if_pos (h6 ▸ hf)]
      have hstepr : typeStep out false Sr f = Sr := by
        unfold typeStep
        rw [if_pos hf]
      rw [hstepd, hstepr]
      exact ih Sd Sr (fun g hg => h2 g (by simp [hg])) h4 h5 h6 h7 h8 h9
    · have hstepd : typeStep out true Sd f =
          recordMove Sd Stage.byType f (childDir out (typeCat f)) true true := by
        unfold typeStep
        rw [if_neg (h6 ▸ hf)]
      have hstepr : typeStep out false Sr f =
          recordMove Sr Stage.byType f (childDir out (typeCat f)) false true := by
        unfold typeStep
        rw [if_neg hf]
      rw [hstepd, hstepr]
      have hlive := h9 f hfF hf
      have hlock := move_file_lockstep fs0 Sr.fs f (childDir out (typeCat f))
        h7 h8 hok (hex f hfF) hlive.1
      have hfd := recordMove_fields Sd Stage.byType f (childDir out (typeCat f)) true true
      have hfr := recordMove_fields Sr Stage.byType f (childDir out (typeCat f)) false true
      have hdryb : (move_file Sd.fs f (childDir out (typeCat f)) true).1 =
          (move_file Sr.fs f (childDir out (typeCat f)) false).1 := by
        rw [h4]
        exact hlock.1
      have hokR : ∀ a b, Sr.fs.moveOk a b = true := by
        intro a b
        rw [h8]
        exact hok a b
      refine ih _ _ (fun g hg => h2 g (by simp [hg])) ?_ ?_ ?_ ?_ ?_ ?_
      · show (recordMove Sd Stage.byType f (childDir out (typeCat f)) true true).fs = fs0
        show (move_file Sd.fs f (childDir out (typeCat f)) true).2 = fs0
        rw [move_file_dry_fs, h4]
      · rw [hfd.1, hfr.1, h5, hdryb]
      · rw [hfd.2.1, hfr.2.1, h6, hdryb]
      · show (move_file Sr.fs f (childDir out (typeCat f)) false).2.aliases = fs0.aliases
        exact hlock.2.1
      · show (move_file Sr.fs f (childDir out (typeCat f)) false).2.moveOk = fs0.moveOk
        exact hlock.2.2.1
      · intro g hgF hgseen
        rw [hfr.2.1] at hgseen
        show fs0.resolve g ∈ (move_file Sr.fs f (childDir out (typeCat f)) false).2.inodes ∧
          (move_file Sr.fs f (childDir out (typeCat f)) false).2.mtimeI (fs0.resolve g) =
            fs0.mtimeI (fs0.resolve g)
        cases hb : (move_file Sr.fs f (childDir out (typeCat f)) false).1
        · have hsame : (move_file Sr.fs f (childDir out (typeCat f)) false).2 = Sr.fs :=
            move_file_real_false Sr.fs f _ hokR hb
          rw [hsame]
          refine h9 g hgF ?_
          rw [hb] at hgseen
          simpa using hgseen
        · rw [hb, if_pos (by simp)] at hgseen
          have hgold : g ∉ Sr.seen ∧ g ≠ f := by
            constructor
            · intro hc; exact hgseen (List.mem_append_left _ hc)
            · intro hc; exact hgseen (List.mem_append_right _ (by simp [hc]))
          have hliveg := h9 g hgF hgold.1
          have hne : fs0.resolve g ≠ fs0.resolve f :=
            map_nodup_ne hlinks hgF hfF hgold.2
          have hpres := hlock.2.2.2 (fs0.resolve g) hliveg.1 hne
          exact ⟨hpres.1, by rw [hpres.2]; exact hliveg.2⟩

theorem date_fold_lockstep (out : String) (now : Nat) (fs0 : FS) (files : List FPath)
    (hok : ∀ a b, fs0.moveOk a b = true)
    (hex : ∀ f ∈ files, fs0.ex f = true)
    (hlinks : (files.map fs0.resolve).Nodup) :
    ∀ (l : List FPath) (Sd Sr : OrgState),
    l.Nodup → (∀ f ∈ l, f ∈ files) →
    Sd.fs = fs0 → Sd.moved = Sr.moved → Sd.seen = Sr.seen →
    Sr.fs.aliases = fs0.aliases → Sr.fs.moveOk = fs0.moveOk →
    (∀ f ∈ l, f ∉ Sr.seen →
      fs0.resolve f ∈ Sr.fs.inodes ∧
      Sr.fs.mtimeI (fs0.resolve f) = fs0.mtimeI (fs0.resolve f)) →
    ((l.foldl (dateStep out true now) Sd).fs = fs0 ∧
     (l.foldl (dateStep out true now) Sd).moved =
       (l.foldl (dateStep out false now) Sr).moved ∧
     (l.foldl (dateStep out true now) Sd).seen =
       (l.foldl (dateStep out false now) Sr).seen) := by
  intro l
  induction l with
  | nil =>
    intro Sd Sr _ _ h4 h5 h6 _ _ _
    exact ⟨h4, h5, h6⟩
  | cons f t ih =>
    intro Sd Sr h1 h2 h4 h5 h6 h7 h8 h9
    simp only [List.foldl_cons]
    have hfF : f ∈ files := h2 f (by simp)
    by_cases hf : f ∈ Sr.seen
    · have hstepd : dateStep out true now Sd f = Sd := by
        unfold dateStep
        rw [if_pos (h6 ▸ hf)]
      have hstepr : dateStep out false now Sr f = Sr := by
        unfold dateStep
        rw [if_pos hf]
      rw [hstepd, hstepr]
      exact ih Sd Sr (List.nodup_cons.1 h1).2 (fun g hg => h2 g (by simp [hg]))
        h4 h5 h6 h7 h8 (fun g hg => h9 g (by simp [hg]))
    · have hlive := h9 f (by simp) hf
      have hexR : Sr.fs.ex f = true := by
        unfold FS.ex
        rw [resolve_congr Sr.fs fs0 h7]
        exact decide_eq_true hlive.1
      have hstat : statMtime Sr.fs f = statMtime fs0 f := by
        unfold statMtime
        rw [hexR, hex f hfF]
        simp only [if_true]
        rw [resolve_congr Sr.fs fs0 h7, hlive.2]
      have hcat : dateCat Sr.fs now f = dateCat fs0 now f := by
        unfold dateCat
        rw [hstat]
      have hstepd : dateStep out true now Sd f =
          recordMove Sd Stage.byDate f (childDir out (dateCat fs0 now f)) true false := by
        unfold dateStep
        rw [if_neg (h6 ▸ hf), h4]
      have hstepr : dateStep out false now Sr f =
          recordMove Sr Stage.byDate f (childDir out (dateCat fs0 now f)) false false := by
        unfold dateStep
        rw [if_neg hf, hcat]
      rw [hstepd, hstepr]
      have hlock := move_file_lockstep fs0 Sr.fs f (childDir out (dateCat fs0 now f))
        h7 h8 hok (hex f hfF) hlive.1
      have hfd := recordMove_fields Sd Stage.byDate f
        (childDir out (dateCat fs0 now f)) true false
      have hfr := recordMove_fields Sr Stage.byDate f
        (childDir out (dateCat fs0 now f)) false false
      have hdryb : (move_file Sd.fs f (childDir out (dateCat fs0 now f)) true).1 =
          (move_file Sr.fs f (childDir out (dateCat fs0 now f)) false).1 := by
        rw [h4]
        exact hlock.1
      have hokR : ∀ a b, Sr.fs.moveOk a b = true := by
        intro a b
        rw [h8]
        exact hok a b
      have hseenr : (recordMove Sr Stage.byDate f
          (childDir out (dateCat fs0 now f)) false false).seen = Sr.seen := by
        rw [hfr.2.1]
        cases hb : (move_file Sr.fs f (childDir out (dateCat fs0 now f)) false).1 <;> simp
      have hseend : (recordMove Sd Stage.byDate f
          (childDir out (dateCat fs0 now f)) true false).seen = Sd.seen := by
        rw [hfd.2.1]
        cases hb : (move_file Sd.fs f (childDir out (dateCat fs0 now f)) true).1 <;> simp
      refine ih _ _ (List.nodup_cons.1 h1).2 (fun g hg => h2 g (by simp [hg])) ?_ ?_ ?_ ?_ ?_ ?_
      · show (move_file Sd.fs f (childDir out (dateCat fs0 now f)) true).2 = fs0
        rw [move_file_dry_fs, h4]
      · rw [hfd.1, hfr.1, h5, hdryb]
      · rw [hseend, hseenr, h6]
      · show (move_file Sr.fs f (childDir out (dateCat fs0 now f)) false).2.aliases =
          fs0.aliases
        exact hlock.2.1
      · show (move_file Sr.fs f (childDir out (dateCat fs0 now f)) false).2.moveOk =
          fs0.moveOk
        exact hlock.2.2.1
      · intro g hg hgseen
        rw [hseenr] at hgseen
        show fs0.resolve g ∈
            (move_file Sr.fs f (childDir out (dateCat fs0 now f)) false).2.inodes ∧
          (move_file Sr.fs f (childDir out (dateCat fs0 now f)) false).2.mtimeI
              (fs0.resolve g) = fs0.mtimeI (fs0.resolve g)
        cases hb : (move_file Sr.fs f (childDir out (dateCat fs0 now f)) false).1
        · have hsame : (move_file Sr.fs f (childDir out (dateCat fs0 now f)) false).2 =
              Sr.fs := move_file_real_false Sr.fs f _ hokR hb
          rw [hsame]
          exact h9 g (by simp [hg]) hgseen
        · have hliveg := h9 g (by simp [hg]) hgseen
          have hne : fs0.resolve g ≠ fs0.resolve f :=
            map_nodup_ne hlinks (h2 g (by simp [hg])) hfF
              (fun hc => (List.nodup_cons.1 h1).1 (hc ▸ hg))
          have hpres := hlock.2.2.2 (fs0.resolve g) hliveg.1 hne
          exact ⟨hpres.1, by rw [hpres.2]; exact hliveg.2⟩

/-- C3 (amended): a dry run leaves the filesystem untouched; and provided
the enumerated files all exist at the start of the run, no two enumerated
paths resolve to the same underlying file, and every attempted move
succeeds (no MoveError), the dry run reports exactly the count a real run
from the same initial state reports. Each proviso is forced by
`organize_dry_run_mismatch`. -/
theorem organize_dry_run_equiv (cfg : Config) (fs0 : FS)
    (hok : ∀ a b, fs0.moveOk a b = true)
    (hex : ∀ f ∈ cfg.files, fs0.ex f = true)
    (hlinks : (cfg.files.map fs0.resolve).Nodup) :
    (organize cfg true fs0).moved = (organize cfg false fs0).moved ∧
    (organize cfg true fs0).fs = fs0 := by
  refine ⟨?_, organize_dry_fs cfg fs0⟩
  have hnd : cfg.files.Nodup := List.Nodup.of_map fs0.resolve hlinks
  set S0 : OrgState := ⟨fs0, 0, [], []⟩ with hS0
  have hlive0 : ∀ f ∈ cfg.files, f ∉ S0.seen →
      fs0.resolve f ∈ S0.fs.inodes ∧
      S0.fs.mtimeI (fs0.resolve f) = fs0.mtimeI (fs0.resolve f) := by
    intro f hf _
    exact ⟨(ex_iff fs0 f).1 (hex f hf), rfl⟩
  have pack1 : (stage1 cfg true S0).fs = fs0 ∧
      (stage1 cfg true S0).moved = (stage1 cfg false S0).moved ∧
      (stage1 cfg true S0).seen = (stage1 cfg false S0).seen ∧
      (stage1 cfg false S0).fs.aliases = fs0.aliases ∧
      (stage1 cfg false S0).fs.moveOk = fs0.moveOk ∧
      (∀ f ∈ cfg.files, f ∉ (stage1 cfg false S0).seen →
        fs0.resolve f ∈ (stage1 cfg false S0).fs.inodes ∧
        (stage1 cfg false S0).fs.mtimeI (fs0.resolve f) =
          fs0.mtimeI (fs0.resolve f)) := by
    unfold stage1
    by_cases hd : cfg.doDups
    · rw [if_pos hd, if_pos hd]
      refine dup_fold_lockstep cfg.out fs0 cfg.files hok hex hlinks
        (find_duplicates S0.fs cfg.files) S0 S0 ?_ ?_ ?_ rfl rfl rfl rfl rfl hlive0
      · exact find_duplicates_nodup S0.fs cfg.files hnd
      · intro f hf
        exact find_duplicates_sub S0.fs cfg.files hf
      · intro f _
        intro hc
        cases hc
    · rw [if_neg hd, if_neg hd]
      exact ⟨rfl, rfl, rfl, rfl, rfl, hlive0⟩
  have pack2 : (stage2 cfg true (stage1 cfg true S0)).fs = fs0 ∧
      (stage2 cfg true (stage1 cfg true S0)).moved =
        (stage2 cfg false (stage1 cfg false S0)).moved ∧
      (stage2 cfg true (stage1 cfg true S0)).seen =
        (stage2 cfg false (stage1 cfg false S0)).seen ∧
      (stage2 cfg false (stage1 cfg false S0)).fs.aliases = fs0.aliases ∧
      (stage2 cfg false (stage1 cfg false S0)).fs.moveOk = fs0.moveOk ∧
      (∀ f ∈ cfg.files, f ∉ (stage2 cfg false (stage1 cfg false S0)).seen →
        fs0.resolve f ∈ (stage2 cfg false (stage1 cfg false S0)).fs.inodes ∧
        (stage2 cfg false (stage1 cfg false S0)).fs.mtimeI (fs0.resolve f) =
          fs0.mtimeI (fs0.resolve f)) := by
    unfold stage2
    by_cases hd : cfg.doType
    · rw [if_pos hd, if_pos hd]
      exact type_fold_lockstep cfg.out fs0 cfg.files hok hex hlinks
        cfg.files (stage1 cfg true S0) (stage1 cfg false S0) (fun f hf => hf)
        pack1.1 pack1.2.1 pack1.2.2.1 pack1.2.2.2.1 pack1.2.2.2.2.1 pack1.2.2.2.2.2
    · rw [if_neg hd, if_neg hd]
      exact pack1
  show (stage3 cfg true (stage2 cfg true (stage1 cfg true S0))).moved =
    (stage3 cfg false (stage2 cfg false (stage1 cfg false S0))).moved
  unfold stage3
  by_cases hd : cfg.doDate
  · rw [if_pos hd, if_pos hd]
    exact (date_fold_lockstep cfg.out cfg.now fs0 cfg.files hok hex hlinks
      cfg.files (stage2 cfg true (stage1 cfg true S0))
      (stage2 cfg false (stage1 cfg false S0)) hnd (fun f hf => hf)
      pack2.1 pack2.2.1 pack2.2.2.1 pack2.2.2.2.1 pack2.2.2.2.2.1
      (fun f hf => pack2.2.2.2.2.2 f hf)).2.1
  · rw [if_neg hd, if_neg hd]
    exact pack2.2.1

/-- C3, counterexample to the claim as stated, in two parts. First, when
a move fails (`shutil.move` raising, modeled by the `moveOk` oracle), the
dry run reports a higher count than the real run from the identical
initial state. Second, even with every attempted move succeeding, an
enumerated symlink alias of another enumerated file makes the dry run
count both while the real run moves the file and then skips the alias at
the `src.exists()` check (a skip, not a move error), so the counts still
differ: each of the amended claim's provisos is forced. -/
theorem organize_dry_run_mismatch :
    ((organize cfgFail true fsFail).moved ≠ (organize cfgFail false fsFail).moved) ∧
    ((∀ a b, fsAlias.moveOk a b = true) ∧
      (organize cfgAlias true fsAlias).moved ≠ (organize cfgAlias false fsAlias).moved) :=
  ⟨by decide, fun a b => rfl, by decide⟩

theorem organize_dry_run_equiv_witness :
    (∀ a b, fsW.moveOk a b = true) ∧
    (∀ f ∈ cfgW.files, fsW.ex f = true) ∧
    (cfgW.files.map fsW.resolve).Nodup ∧
    ((organize cfgW true fsW).moved = (organize cfgW false fsW).moved ∧
      (organize cfgW true fsW).fs = fsW) :=
  ⟨fun a b => rfl, by decide, by decide,
    organize_dry_run_equiv cfgW fsW (fun a b => rfl) (by decide) (by decide)⟩

end SFO
